import Mathlib

/-!
Shallow embedding of the Sokoban solving core (`core/parser.py`, `core/state.py`,
`core/moves.py`, `solver/deadlock.py`, `solver/heuristic.py`, `solver/astar.py`)
and proofs about it.  Grid positions are integer pairs as in the Python source;
Python `frozenset`s become `Finset`s, Python dicts become association lists,
Python strings become `List Char`.  Breadth-first loops are written with an
explicit fuel argument so that every definition is executable by the kernel;
each fuel value chosen is large enough that the loop always drains its queue
first (each iteration pops one queue entry, and at most `width * height + 1`
entries are ever enqueued), which is proved where a theorem depends on it.
Wall-clock time is not modelled: the `time.time()` bookkeeping in `astar.py`
only feeds the `time_elapsed` stats field and the wall-clock timeout branch,
neither of which any claim is about.
-/

namespace Sokoban

/-- Grid position, Python `(x, y)` int pair. -/
abbrev Pos : Type := ℤ × ℤ

/-- The `DIRECTIONS` dict of `core/moves.py` in insertion order. -/
def DIRECTIONS : List (Char × Pos) :=
  [('U', (0, -1)), ('D', (0, 1)), ('L', (-1, 0)), ('R', (1, 0))]

/-- The literal direction list `[(0, 1), (0, -1), (1, 0), (-1, 0)]` used by
`solver/deadlock.py` and `solver/heuristic.py`. -/
def FOUR_DIRS : List Pos := [(0, 1), (0, -1), (1, 0), (-1, 0)]

/-- Dynamic search state from `core/state.py`: player position and box set. -/
structure State where
  player_pos : Pos
  boxes : Finset Pos

/-- Equality of states is componentwise; the instance is written with
`decidable_of_iff` so that it evaluates by reduction. -/
instance : DecidableEq State := fun s t =>
  decidable_of_iff (s.player_pos = t.player_pos ∧ s.boxes = t.boxes)
    ⟨fun h => by cases s; cases t; simp only [State.mk.injEq]; exact h,
      fun h => ⟨congrArg State.player_pos h, congrArg State.boxes h⟩⟩

/-- Static puzzle data from `core/state.py`. -/
structure PuzzleStatic where
  walls : Finset Pos
  goals : Finset Pos
  width : ℕ
  height : ℕ
  deadlock_squares : Finset Pos
deriving DecidableEq

/-- The goal test `is_goal_state` of `core/state.py`. -/
def is_goal_state (s : State) (ps : PuzzleStatic) : Bool :=
  decide (s.boxes = ps.goals)

/-- Total order on positions used to enumerate a `Finset` as a list.  Python
iterates a `frozenset` in an arbitrary but fixed order; the embedding fixes
the lexicographic order (the enumeration order is never semantically
significant below, only membership is). -/
def posLe (a b : Pos) : Prop := a.1 < b.1 ∨ (a.1 = b.1 ∧ a.2 ≤ b.2)

instance : DecidableRel posLe := fun a b =>
  inferInstanceAs (Decidable (a.1 < b.1 ∨ (a.1 = b.1 ∧ a.2 ≤ b.2)))

instance : IsTrans Pos posLe := by
  constructor; intro a b c hab hbc; unfold posLe at *; omega

instance : IsAntisymm Pos posLe := by
  constructor; intro a b hab hba; unfold posLe at *
  have : a.1 = b.1 ∧ a.2 = b.2 := by omega
  exact Prod.ext this.1 this.2

instance : IsTotal Pos posLe := by
  constructor; intro a b; unfold posLe; omega

/-- Enumerate a finite set of positions as a (sorted, duplicate-free) list;
stands in for Python `frozenset` iteration.  Insertion sort is used because it
is structurally recursive, hence evaluable inside the kernel. -/
def finsetToList (s : Finset Pos) : List Pos :=
  Quot.liftOn s.val (fun l => l.insertionSort posLe) fun a b hab => by
    have hperm : List.Perm (a.insertionSort posLe) (b.insertionSort posLe) :=
      ((a.perm_insertionSort posLe).trans hab).trans
        (b.perm_insertionSort posLe).symm
    exact List.eq_of_perm_of_sorted hperm
      (List.sorted_insertionSort posLe a) (List.sorted_insertionSort posLe b)

/-- The bounds test `0 <= x < width and 0 <= y < height` used throughout. -/
def inBoundsB (width height : ℕ) (p : Pos) : Bool :=
  decide (0 ≤ p.1) && decide (p.1 < (width : ℤ)) &&
    decide (0 ≤ p.2) && decide (p.2 < (height : ℤ))

/-- The four orthogonal neighbours of `p` in `DIRECTIONS` order. -/
def reachNbrs (p : Pos) : List Pos :=
  DIRECTIONS.map fun d => (p.1 + d.2.1, p.2 + d.2.2)

/-- Queue/visited loop of `get_reachable_positions` (`core/moves.py`).  The
Python loop adds each freshly discovered square to `visited` and to the FIFO
queue; the four neighbour squares of a position are pairwise distinct, so
filtering all four against the old `visited` set at once is equivalent. -/
def reachAux (obstacles : Finset Pos) (width height : ℕ) :
    ℕ → List Pos → Finset Pos → Finset Pos
  | _, [], visited => visited
  | 0, _ :: _, visited => visited
  | fuel + 1, p :: queue, visited =>
    let ns := (reachNbrs p).filter fun q =>
      inBoundsB width height q && decide (q ∉ obstacles) && decide (q ∉ visited)
    reachAux obstacles width height fuel (queue ++ ns) (visited ∪ ns.toFinset)

/-- `get_reachable_positions` of `core/moves.py`: BFS over non-wall, non-box
squares starting from the player.  The fuel bound `5 * width * height + 1`
exceeds the iteration count of any run (one pop per iteration, at most
`width * height + 1` total enqueues). -/
def get_reachable_positions (player_pos : Pos) (boxes walls : Finset Pos)
    (width height : ℕ) : Finset Pos :=
  reachAux (walls ∪ boxes) width height (5 * width * height + 1)
    [player_pos] {player_pos}

/-- Push-legality test of `generate_moves` for box `b` and direction delta
`δ`: the push-from square `box - direction` is player-reachable, and the
destination `box + direction` is no obstacle (`walls | boxes`) and in
bounds. -/
def pushLegal (s : State) (ps : PuzzleStatic) (reachable : Finset Pos)
    (b δ : Pos) : Prop :=
  (b.1 - δ.1, b.2 - δ.2) ∈ reachable ∧
    (b.1 + δ.1, b.2 + δ.2) ∉ ps.walls ∪ s.boxes ∧
    0 ≤ b.1 + δ.1 ∧ b.1 + δ.1 < (ps.width : ℤ) ∧
    0 ≤ b.2 + δ.2 ∧ b.2 + δ.2 < (ps.height : ℤ)

instance (s : State) (ps : PuzzleStatic) (reachable : Finset Pos)
    (b δ : Pos) : Decidable (pushLegal s ps reachable b δ) :=
  inferInstanceAs (Decidable ((b.1 - δ.1, b.2 - δ.2) ∈ reachable ∧
    (b.1 + δ.1, b.2 + δ.2) ∉ ps.walls ∪ s.boxes ∧
    0 ≤ b.1 + δ.1 ∧ b.1 + δ.1 < (ps.width : ℤ) ∧
    0 ≤ b.2 + δ.2 ∧ b.2 + δ.2 < (ps.height : ℤ)))

/-- The successor state of a legal push of box `b` with delta `δ`: the player
ends on the box's old square and the box set replaces `b` by the
destination. -/
def pushResult (s : State) (b δ : Pos) : State :=
  ⟨b, insert (b.1 + δ.1, b.2 + δ.2) (s.boxes.erase b)⟩

/-- One candidate of the inner loop of `generate_moves`: `some` move when the
push of box `b` along direction `dir` is legal, `none` otherwise. -/
def moveCandidate (s : State) (ps : PuzzleStatic) (reachable : Finset Pos)
    (b : Pos) (dir : Char × Pos) : Option (Char × State × Pos) :=
  if pushLegal s ps reachable b dir.2 then
    some (dir.1, pushResult s b dir.2, b)
  else none

/-- `generate_moves` of `core/moves.py`.  Note that each emitted element is a
triple `(direction, new_state, box)`, exactly as in the source. -/
def generate_moves (s : State) (ps : PuzzleStatic) : List (Char × State × Pos) :=
  let reachable := get_reachable_positions s.player_pos s.boxes ps.walls
    ps.width ps.height
  finsetToList s.boxes |>.flatMap fun b =>
    DIRECTIONS.filterMap (moveCandidate s ps reachable b)

/-- `apply_move` of `core/moves.py`: replay one push of a known solution.
The Python `raise ValueError(...)` becomes `Except.error`. -/
def apply_move (s : State) (direction : Char) (ps : PuzzleStatic) :
    Except String State :=
  match DIRECTIONS.find? fun d => decide (d.1 = direction) with
  | none => .error "invalid direction"
  | some dir =>
    let reachable := get_reachable_positions s.player_pos s.boxes ps.walls
      ps.width ps.height
    match (finsetToList s.boxes).find? (fun b =>
        let push_from : Pos := (b.1 - dir.2.1, b.2 - dir.2.2)
        let push_to : Pos := (b.1 + dir.2.1, b.2 + dir.2.2)
        decide (push_from ∈ reachable) &&
          decide (push_to ∉ ps.walls ∪ s.boxes) &&
          inBoundsB ps.width ps.height push_to) with
    | some b =>
      let push_to : Pos := (b.1 + dir.2.1, b.2 + dir.2.2)
      .ok ⟨b, insert push_to (s.boxes.erase b)⟩
    | none => .error "No valid push from state"

/-- Python `str.split('\n')`: cut a character list at every newline, keeping
empty segments. -/
def splitLines : List Char → List (List Char)
  | [] => [[]]
  | c :: rest =>
    match splitLines rest with
    | [] => [[]]
    | l :: ls => if c = '\n' then [] :: l :: ls else (c :: l) :: ls

/-- Python whitespace characters relevant to `str.strip()` on a single line. -/
def pyIsSpace (c : Char) : Bool :=
  c = ' ' || c = '\t' || c = '\n' || c = '\r' || c = '\x0b' || c = '\x0c'

/-- `line.strip() == ''`: the line consists only of whitespace. -/
def isBlankLine (l : List Char) : Bool := l.all pyIsSpace

/-- The `while lines and lines[-1].strip() == '': lines.pop()` loop of
`parse_puzzle_string`. -/
def dropTrailingBlanks (ls : List (List Char)) : List (List Char) :=
  (ls.reverse.dropWhile isBlankLine).reverse

/-- The `while lines and lines[0].strip() == '': lines.pop(0)` loop of
`parse_puzzle_string`. -/
def dropLeadingBlanks (ls : List (List Char)) : List (List Char) :=
  ls.dropWhile isBlankLine

/-- Python `line.ljust(w)`: right-pad with spaces to width `w`. -/
def ljust (l : List Char) (w : ℕ) : List Char :=
  l ++ List.replicate (w - l.length) ' '

/-- Python `max(len(line) for line in lines)` (with `0` for the empty list,
which `parse_puzzle_string` never evaluates). -/
def maxLineLength (ls : List (List Char)) : ℕ :=
  (ls.map List.length).foldr max 0

/-- `parse_puzzle_string` of `core/parser.py`. -/
def parse_puzzle_string (puzzle_str : List Char) : List (List Char) :=
  let lines := dropLeadingBlanks (dropTrailingBlanks (splitLines puzzle_str))
  if lines = [] then []
  else lines.map fun l => ljust l (maxLineLength lines)

/-- Output record of `extract_elements` (`core/parser.py`). -/
structure Elements where
  player : Option Pos
  boxes : Finset Pos
  goals : Finset Pos
  walls : Finset Pos
  width : ℕ
  height : ℕ
deriving DecidableEq

/-- Cell classification step of `extract_elements` for character `c` at
position `p`. -/
def classifyCell (acc : Elements) (p : Pos) (c : Char) : Elements :=
  if c = '#' then { acc with walls := insert p acc.walls }
  else if c = '@' then { acc with player := some p }
  else if c = '$' then { acc with boxes := insert p acc.boxes }
  else if c = '.' then { acc with goals := insert p acc.goals }
  else if c = '+' then { acc with player := some p, goals := insert p acc.goals }
  else if c = '*' then
    { acc with boxes := insert p acc.boxes, goals := insert p acc.goals }
  else acc

/-- `extract_elements` of `core/parser.py`. -/
def extract_elements (grid : List (List Char)) : Elements :=
  let height := grid.length
  let width := match grid with | [] => 0 | r :: _ => r.length
  grid.enum.foldl
    (fun acc yrow =>
      yrow.2.enum.foldl
        (fun acc xc => classifyCell acc ((xc.1 : ℤ), (yrow.1 : ℤ)) xc.2)
        acc)
    ⟨none, ∅, ∅, ∅, width, height⟩

/-- `is_corner_deadlock` of `solver/deadlock.py`. -/
def is_corner_deadlock (pos : Pos) (walls goals : Finset Pos) : Bool :=
  if pos ∈ goals then false
  else
    let top := (pos.1, pos.2 - 1) ∈ walls
    let bottom := (pos.1, pos.2 + 1) ∈ walls
    let left := (pos.1 - 1, pos.2) ∈ walls
    let right := (pos.1 + 1, pos.2) ∈ walls
    decide ((top ∧ left) ∨ (top ∧ right) ∨ (bottom ∧ left) ∨ (bottom ∧ right))

/-- The grid squares scanned by `compute_static_deadlocks`:
`(x, y)` for `x in range(width), y in range(height)`. -/
def gridSquares (width height : ℕ) : Finset Pos :=
  ((Finset.range width) ×ˢ (Finset.range height)).image
    fun q => ((q.1 : ℤ), (q.2 : ℤ))

/-- `compute_static_deadlocks` of `solver/deadlock.py`: all non-wall non-goal
corner squares (as a set; the Python double loop builds the same set). -/
def compute_static_deadlocks (walls goals : Finset Pos) (width height : ℕ) :
    Finset Pos :=
  (gridSquares width height).filter fun p =>
    p ∉ walls ∧ p ∉ goals ∧ is_corner_deadlock p walls goals = true

/-- `is_freeze_deadlock` of `solver/deadlock.py`: some box not on a goal has,
in every direction, either its destination blocked by a wall or box, or the
push-from square a wall. -/
def is_freeze_deadlock (boxes walls goals : Finset Pos) : Bool :=
  (finsetToList boxes).any fun b =>
    if b ∈ goals then false
    else
      ! FOUR_DIRS.any fun d =>
        let new_box : Pos := (b.1 + d.1, b.2 + d.2)
        let push_from : Pos := (b.1 - d.1, b.2 - d.2)
        decide (new_box ∉ walls) && decide (new_box ∉ boxes) &&
          decide (push_from ∉ walls)

/-- `is_2x2_deadlock` of `solver/deadlock.py`. -/
def is_2x2_deadlock (boxes walls goals : Finset Pos) : Bool :=
  (finsetToList boxes).any fun b =>
    let square : List Pos :=
      [(b.1, b.2), (b.1 + 1, b.2), (b.1, b.2 + 1), (b.1 + 1, b.2 + 1)]
    (square.all fun p => p ∈ boxes) && ! (square.all fun p => p ∈ goals)

/-- `is_deadlocked` of `solver/deadlock.py`: precomputed-square check, then
freeze check, then 2x2 check. -/
def is_deadlocked (s : State) (ps : PuzzleStatic) : Bool :=
  ((finsetToList s.boxes).any fun b => b ∈ ps.deadlock_squares) ||
    is_freeze_deadlock s.boxes ps.walls ps.goals ||
    is_2x2_deadlock s.boxes ps.walls ps.goals

/-- The four orthogonal neighbours of `p` in `FOUR_DIRS` order, as iterated by
the heuristic BFS. -/
def goalNbrs (p : Pos) : List Pos :=
  FOUR_DIRS.map fun d => (p.1 + d.1, p.2 + d.2)

/-- Queue/visited/distances loop of `precompute_goal_distances`
(`solver/heuristic.py`) for a single goal: positions are popped FIFO and their
distance recorded; unvisited in-bounds non-wall neighbours are enqueued at
distance one more. -/
def bfsGoalAux (walls : Finset Pos) (width height : ℕ) :
    ℕ → List (Pos × ℕ) → Finset Pos → List (Pos × ℕ) → List (Pos × ℕ)
  | _, [], _, dist => dist
  | 0, _ :: _, _, dist => dist
  | fuel + 1, (p, d) :: queue, visited, dist =>
    let ns := (goalNbrs p).filter fun q =>
      inBoundsB width height q && decide (q ∉ walls) && decide (q ∉ visited)
    bfsGoalAux walls width height fuel
      (queue ++ ns.map fun q => (q, d + 1))
      (visited ∪ ns.toFinset) (dist ++ [(p, d)])

/-- Fuel that always suffices for one goal's BFS (proved below as
`bfsGoalAux_measure`-based lemmas): one pop per iteration and at most
`width * height + 1` enqueues in total. -/
def bfsFuel (width height : ℕ) : ℕ := 5 * width * height + 1

/-- The BFS run for a single goal position: queue seeded with the goal at
distance `0`, visited set `{goal}`, empty table. -/
def bfsGoal (walls : Finset Pos) (width height : ℕ) (goal : Pos) :
    List (Pos × ℕ) :=
  bfsGoalAux walls width height (bfsFuel width height) [(goal, 0)] {goal} []

/-- `precompute_goal_distances` of `solver/heuristic.py`: the dict mapping
`(x, y, goal_idx)` to BFS distance, as an association list keyed by
`(position, goal index)`. -/
def precompute_goal_distances (walls goals : Finset Pos) (width height : ℕ) :
    List ((Pos × ℕ) × ℕ) :=
  (finsetToList goals).enum.flatMap fun gi =>
    (bfsGoal walls width height gi.2).map fun pd => ((pd.1, gi.1), pd.2)

/-- Python `key in goal_distances` plus `goal_distances[key]` on the dict. -/
def tableFind (gd : List ((Pos × ℕ) × ℕ)) (key : Pos × ℕ) : Option ℕ :=
  (gd.find? fun e => decide (e.1 = key)).map fun e => e.2

/-- The inner loop of `distance_heuristic` for one box: running minimum of the
table entries for the box over all goal indices, `⊤` when none exists. -/
def min_box_dist (gd : List ((Pos × ℕ) × ℕ)) (num_goals : ℕ) (b : Pos) : ℕ∞ :=
  (List.range num_goals).foldl
    (fun m i =>
      match tableFind gd (b, i) with
      | some d => min m (d : ℕ∞)
      | none => m) ⊤

/-- `distance_heuristic` of `solver/heuristic.py`: sum over boxes of the
minimum table distance to any goal; `⊤` (Python `float('inf')`) as soon as
some box has no entry for any goal. -/
def distance_heuristic (boxes goals : Finset Pos) (gd : List ((Pos × ℕ) × ℕ)) :
    ℕ∞ :=
  ∑ b ∈ boxes, min_box_dist gd goals.card b

/-- A frontier entry of `solve` (`solver/astar.py`): the heap tuple
`(f_score, counter, g_score, state, path)`. -/
structure Entry where
  f : ℕ∞
  counter : ℕ
  g : ℕ
  state : State
  path : List Char
deriving DecidableEq

/-- Heap ordering on entries: lexicographic on `(f, counter)`.  The Python
tuples never compare beyond the counter because counters are unique. -/
def entryLt (a b : Entry) : Bool :=
  decide (a.f < b.f) || (decide (a.f = b.f) && decide (a.counter < b.counter))

/-- `heapq.heappop`: remove the least entry under `entryLt`; the remaining
entries are kept as a bag (heap layout is irrelevant to the result because
counters make the order total). -/
def popMin : List Entry → Option (Entry × List Entry)
  | [] => none
  | e :: rest =>
    match popMin rest with
    | none => some (e, [])
    | some (m, others) =>
      if entryLt m e then some (m, e :: others) else some (e, rest)

/-- Failure reasons of the solver result dicts. -/
inductive FailReason
  | invalid_puzzle
  | unsolvable
  | timeout
deriving DecidableEq

/-- Result dict of `solve` / `solve_puzzle`.  `states_explored` is `none` for
the dicts built without a `stats` entry; `time_elapsed` and the
`initial_state` echo added by `solve_puzzle` are not modelled (wall-clock
time, and a verbatim copy of parser output already exposed as
`extract_elements`). -/
structure SolveResult where
  success : Bool
  solution : Option (List Char)
  error : Option String
  reason : Option FailReason
  states_explored : Option ℕ
  optimal : Option Bool
deriving DecidableEq

/-- Expansion loop of `solve` (`solver/astar.py`).  Each iteration: exit with
`unsolvable` when the frontier is empty; return `timeout` when the node budget
is exhausted (the wall-clock check is not modelled); pop the least entry; skip
it if already finalized; otherwise finalize it and call `generate_moves`.  The
source then runs `for direction, new_state in moves:` over a list of
3-tuples, which raises `ValueError: too many values to unpack (expected 2)`
on the first element; the loop body (goal test, deadlock pruning, heap pushes)
is therefore unreachable whenever `moves` is non-empty, and no entry is ever
pushed.  The fuel only bounds iterations: since nothing is pushed, the queue
shrinks by one entry per iteration, so any fuel exceeding the initial queue
length is enough and the fuel-exhausted case is dead code. -/
def solveLoop (ps : PuzzleStatic) (max_states : ℕ) :
    ℕ → List Entry → Finset State → ℕ → Except String SolveResult
  | 0, _, _, _ => .error "out of fuel"
  | fuel + 1, open_set, closed_set, states_explored =>
    match popMin open_set with
    | none =>
      .ok ⟨false, none, some "No solution exists", some .unsolvable,
        some states_explored, none⟩
    | some ep =>
      if states_explored ≥ max_states then
        .ok ⟨false, none, some "Search terminated: max states reached",
          some .timeout, some states_explored, none⟩
      else if ep.1.state ∈ closed_set then
        solveLoop ps max_states fuel ep.2 closed_set states_explored
      else
        match generate_moves ep.1.state ps with
        | [] =>
          solveLoop ps max_states fuel ep.2 (insert ep.1.state closed_set)
            (states_explored + 1)
        | _ :: _ => .error "too many values to unpack (expected 2)"

/-- `solve` of `solver/astar.py`: precompute the distance table; succeed
immediately on an already-solved state; fail as `unsolvable` when the initial
heuristic is infinite; otherwise run the expansion loop seeded with the
initial state.  The `timeout` wall-clock parameter is not modelled (see
`solveLoop`); `max_states` defaults to `10_000_000` in the source. -/
def solve (initial : State) (ps : PuzzleStatic) (max_states : ℕ) :
    Except String SolveResult :=
  let gd := precompute_goal_distances ps.walls ps.goals ps.width ps.height
  if is_goal_state initial ps then
    .ok ⟨true, some [], none, none, some 0, some true⟩
  else
    let h := distance_heuristic initial.boxes ps.goals gd
    if h = ⊤ then
      .ok ⟨false, none, some "No solution found", some .unsolvable, some 0, none⟩
    else
      solveLoop ps max_states (max_states + 2) [⟨h, 0, 0, initial, []⟩] ∅ 0

/-- Construction of the `PuzzleStatic` in `solve_puzzle`
(`PuzzleStatic.from_elements` followed by the `deadlock_squares`
assignment). -/
def static_of (els : Elements) : PuzzleStatic :=
  ⟨els.walls, els.goals, els.width, els.height,
    compute_static_deadlocks els.walls els.goals els.width els.height⟩

/-- Construction of the initial `State` in `solve_puzzle`. -/
def initial_of (els : Elements) (player : Pos) : State := ⟨player, els.boxes⟩

/-- Result dict for an invalid puzzle (no `stats` entry). -/
def invalidResult (msg : String) : SolveResult :=
  ⟨false, none, some msg, some .invalid_puzzle, none, none⟩

/-- `solve_puzzle` of `solver/astar.py`: parse, validate, build the static
data and initial state, and search.  The surrounding `try/except Exception`
turns any raised exception (here: the tuple-unpacking `ValueError` surfaced
as `Except.error` from `solveLoop`) into an `invalid_puzzle` result carrying
the exception message. -/
def solve_puzzle (puzzle_string : List Char) (max_states : ℕ) : SolveResult :=
  let grid := parse_puzzle_string puzzle_string
  if grid = [] then invalidResult "Empty puzzle"
  else
    let els := extract_elements grid
    match els.player with
    | none => invalidResult "No player found in puzzle"
    | some player =>
      if els.boxes = ∅ then invalidResult "No boxes found in puzzle"
      else if els.goals = ∅ then invalidResult "No goals found in puzzle"
      else if els.boxes.card ≠ els.goals.card then
        invalidResult ("Box count (" ++ toString els.boxes.card ++
          ") != goal count (" ++ toString els.goals.card ++ ")")
      else
        match solve (initial_of els player) (static_of els) max_states with
        | .ok r => r
        | .error msg => invalidResult msg

/-- Replay a solution string from a state with `apply_move`, as the
collaborators and the spec's replay property do. -/
def replay (ps : PuzzleStatic) : State → List Char → Except String State
  | s, [] => .ok s
  | s, c :: rest =>
    match apply_move s c ps with
    | .ok s' => replay ps s' rest
    | .error e => .error e

/-- In-bounds non-wall squares: the squares a box can legally occupy and the
squares the goal-distance BFS explores. -/
def freeSquares (walls : Finset Pos) (width height : ℕ) : Finset Pos :=
  (gridSquares width height).filter fun p => p ∉ walls

/-- Loop invariant of the goal-distance BFS `bfsGoalAux`: the visited set is
partitioned between recorded distances and pending queue entries; positions
are never repeated; recorded and pending distance values form one
non-decreasing sequence whose pending part spans at most two consecutive
values; every recorded square's free neighbours are recorded or pending at
distance at most one more; pending squares are free. -/
structure BfsInv (walls : Finset Pos) (width height : ℕ)
    (queue : List (Pos × ℕ)) (visited : Finset Pos)
    (dist : List (Pos × ℕ)) : Prop where
  vis_eq : visited = (dist.map Prod.fst).toFinset ∪ (queue.map Prod.fst).toFinset
  nodup : ((dist ++ queue).map Prod.fst).Nodup
  sorted : ((dist ++ queue).map Prod.snd).Sorted (· ≤ ·)
  spread : ∀ x ∈ queue.map Prod.snd, ∀ y ∈ queue.map Prod.snd, x ≤ y + 1
  closed : ∀ pd ∈ dist, ∀ q ∈ goalNbrs pd.1,
    q ∈ freeSquares walls width height →
    ∃ dq ≤ pd.2 + 1, (q, dq) ∈ dist ∨ (q, dq) ∈ queue
  qfree : ∀ pd ∈ queue, pd.1 ∈ freeSquares walls width height

/-- What the goal-distance BFS guarantees about its finished table: no
position is recorded twice, recorded squares are free, and every free
neighbour of a recorded square is recorded with a distance at most one
larger. -/
def BfsFinal (walls : Finset Pos) (width height : ℕ)
    (table : List (Pos × ℕ)) : Prop :=
  (table.map Prod.fst).Nodup ∧
    ∀ pd ∈ table, ∀ q ∈ goalNbrs pd.1,
      q ∈ freeSquares walls width height →
      ∃ dq ≤ pd.2 + 1, (q, dq) ∈ table

/-- One legal push: some move generated from `s` has successor state `t`. -/
def StepTo (ps : PuzzleStatic) (s t : State) : Prop :=
  ∃ m ∈ generate_moves s ps, m.2.1 = t

/-- `Steps ps s n t`: state `t` is reached from `s` by exactly `n` legal
pushes (moves of `generate_moves`). -/
inductive Steps (ps : PuzzleStatic) : State → ℕ → State → Prop
  | refl (s : State) : Steps ps s 0 s
  | head {s u t : State} {n : ℕ} :
      StepTo ps s u → Steps ps u n t → Steps ps s (n + 1) t

/-!
Concrete puzzles and states used by the claim-level theorems below.
-/

/-- The one-push optimality example grid of the spec (expected solution
`"U"`). -/
def onePushGrid : List Char := ("####\n#. #\n#\x24 #\n#@ #\n####").toList

/-- A single-box puzzle whose box starts in a non-goal corner, with the goal
adjacent (so the goal-distance heuristic is finite). -/
def cornerGrid : List Char := ("####\n#\x24.#\n#@ #\n####").toList

/-- A puzzle that starts already solved: one box on its goal. -/
def solvedGrid : List Char := ("*@").toList

/-- A grid with walls only: no player, boxes or goals. -/
def noPlayerGrid : List Char := ("####").toList

/-- Static data and states of the one-push puzzle. -/
def opStatic : PuzzleStatic :=
  static_of (extract_elements (parse_puzzle_string onePushGrid))

/-- Parsed initial state of the one-push puzzle. -/
def opInitial : State := ⟨(1, 3), {(1, 2)}⟩

/-- The one-push puzzle after pushing the box up. -/
def opUp : State := ⟨(1, 2), {(1, 1)}⟩

/-- Static data of the corner puzzle. -/
def cornStatic : PuzzleStatic :=
  static_of (extract_elements (parse_puzzle_string cornerGrid))

/-- Parsed initial state of the corner puzzle. -/
def cornInitial : State := ⟨(1, 2), {(1, 1)}⟩

/-- Static data of a puzzle where four boxes form a 2x2 block on open floor
away from the goals: no walls at all, four goals in the opposite corner. -/
def sq2Static : PuzzleStatic := ⟨∅, {(3, 3), (3, 4), (4, 3), (4, 4)}, 6, 6, ∅⟩

/-- State with the 2x2 box block at `(1,1)..(2,2)` and the player beside it.
Neither the precomputed-square check (no corners without walls) nor the
freeze check (each box has a free destination with a non-wall push-from
square) fires here; only the 2x2 check does. -/
def sq2State : State := ⟨(0, 0), {(1, 1), (2, 1), (1, 2), (2, 2)}⟩

/-- Border walls of a 7x7 grid. -/
def border7 : List Pos :=
  (List.range 7).map (fun x => ((x : ℤ), (0 : ℤ))) ++
    (List.range 7).map (fun x => ((x : ℤ), (6 : ℤ))) ++
    (List.range 7).map (fun y => ((0 : ℤ), (y : ℤ))) ++
    (List.range 7).map (fun y => ((6 : ℤ), (y : ℤ)))

/-- Walls of the freeze-deadlock counterexample: the 7x7 border plus one
inner wall at `(1, 3)`. -/
def exWalls : Finset Pos := border7.toFinset ∪ {(1, 3)}

/-- Goals of the freeze-deadlock counterexample. -/
def exGoals : Finset Pos := {(2, 2), (3, 2), (3, 4)}

/-- Puzzle static of the freeze-deadlock counterexample, with the deadlock
squares computed exactly as `solve_puzzle` computes them. -/
def exStatic : PuzzleStatic :=
  ⟨exWalls, exGoals, 7, 7, compute_static_deadlocks exWalls exGoals 7 7⟩

/-- Initial state of the counterexample: three boxes stacked at
`(2, 2), (2, 3), (2, 4)` against the inner wall, player at `(3, 5)`.  The
middle box is flagged frozen by `is_freeze_deadlock` (wall left, wall on the
push-from side for a right push, boxes above and below), yet all three boxes
can still be delivered. -/
def exState0 : State := ⟨(3, 5), {(2, 2), (2, 3), (2, 4)}⟩

/-- After pushing the box at `(2, 2)` right. -/
def exSt1 : State := ⟨(2, 2), {(3, 2), (2, 3), (2, 4)}⟩

/-- After pushing the box at `(2, 4)` right. -/
def exSt2 : State := ⟨(2, 4), {(3, 2), (2, 3), (3, 4)}⟩

/-- After pushing the box at `(2, 3)` up: all boxes on goals. -/
def exSt3 : State := ⟨(2, 3), {(3, 2), (2, 2), (3, 4)}⟩

/-!
General lemmas about the embedded code.
-/

theorem mem_finsetToList {s : Finset Pos} {p : Pos} :
    p ∈ finsetToList s ↔ p ∈ s := by
  rcases s with ⟨m, hm⟩
  induction m using Quot.ind with
  | _ l =>
    simp only [finsetToList, Quot.liftOn, Finset.mem_mk, Multiset.quot_mk_to_coe,
      Multiset.mem_coe]
    exact List.Perm.mem_iff (l.perm_insertionSort posLe)

theorem finsetToList_nodup (s : Finset Pos) : (finsetToList s).Nodup := by
  rcases s with ⟨m, hm⟩
  induction m using Quot.ind with
  | _ l =>
    exact (l.perm_insertionSort posLe).nodup_iff.mpr hm



/-- Any square the player-reachability BFS reports is either already in the
seed `visited` set or is not an obstacle: the loop only ever adds squares that
pass the `not in obstacles` filter. -/
theorem mem_reachAux {obstacles : Finset Pos} {width height : ℕ} :
    ∀ (fuel : ℕ) (queue : List Pos) (visited : Finset Pos) (q : Pos),
      q ∈ reachAux obstacles width height fuel queue visited →
      q ∈ visited ∨ q ∉ obstacles := by
  intro fuel
  induction fuel with
  | zero =>
    intro queue visited q hq
    cases queue with
    | nil => exact Or.inl hq
    | cons p rest => exact Or.inl hq
  | succ fuel ih =>
    intro queue visited q hq
    cases queue with
    | nil => exact Or.inl hq
    | cons p rest =>
      rw [reachAux] at hq
      rcases ih _ _ _ hq with h | h
      · rcases Finset.mem_union.mp h with h | h
        · exact Or.inl h
        · right
          have hmem := List.mem_toFinset.mp h
          have := List.of_mem_filter hmem
          simp only [Bool.and_eq_true, decide_eq_true_eq] at this
          exact this.1.2
      · exact Or.inr h

/-- The reachable set never contains a wall square, provided the player does
not start on one (walls are obstacles for the BFS). -/
theorem get_reachable_positions_not_wall {player_pos : Pos}
    {boxes walls : Finset Pos} {width height : ℕ} {q : Pos}
    (hp : player_pos ∉ walls)
    (hq : q ∈ get_reachable_positions player_pos boxes walls width height) :
    q ∉ walls := by
  intro hqw
  rcases mem_reachAux _ _ _ _ hq with h | h
  · rw [Finset.mem_singleton] at h
    exact hp (h ▸ hqw)
  · exact h (Finset.mem_union_left _ hqw)

/-- Membership characterization of `generate_moves`: a triple
`(d, t, b)` is emitted exactly when `d` is a direction whose delta `δ`
satisfies the push-legality conditions of the source for box `b` — the
push-from square is in the reachable set computed with boxes as obstacles,
and the destination is in bounds and neither wall nor box — and `t` is the
corresponding successor state. -/
theorem mem_generate_moves {s : State} {ps : PuzzleStatic} {d : Char}
    {t : State} {b : Pos} :
    (d, t, b) ∈ generate_moves s ps ↔
      ∃ δ : Pos, (d, δ) ∈ DIRECTIONS ∧ b ∈ s.boxes ∧
        pushLegal s ps
          (get_reachable_positions s.player_pos s.boxes ps.walls
            ps.width ps.height) b δ ∧
        t = pushResult s b δ := by
  constructor
  · intro hmem
    rw [generate_moves] at hmem
    simp only [List.mem_flatMap, List.mem_filterMap] at hmem
    rcases hmem with ⟨b', hb', dir, hdir, hsome⟩
    rw [moveCandidate] at hsome
    split at hsome
    · rename_i hleg
      injection hsome with h
      obtain ⟨hd, h2⟩ := Prod.mk.injEq .. ▸ h
      obtain ⟨ht, hb⟩ := Prod.mk.injEq .. ▸ h2
      subst hd; subst hb
      exact ⟨dir.2, by simpa using hdir, mem_finsetToList.mp hb', hleg, ht.symm⟩
    · exact absurd hsome (by simp)
  · rintro ⟨δ, hdir, hb, hleg, ht⟩
    rw [generate_moves]
    simp only [List.mem_flatMap, List.mem_filterMap]
    refine ⟨b, mem_finsetToList.mpr hb, (d, δ), hdir, ?_⟩
    rw [moveCandidate, if_pos hleg, ht]

/-- Unpack a single step into its pushed box and direction delta. -/
theorem stepTo_elim {ps : PuzzleStatic} {s t : State} (h : StepTo ps s t) :
    ∃ (b δ : Pos) (d : Char), (d, δ) ∈ DIRECTIONS ∧ b ∈ s.boxes ∧
      pushLegal s ps
        (get_reachable_positions s.player_pos s.boxes ps.walls
          ps.width ps.height) b δ ∧
      t = pushResult s b δ := by
  rcases h with ⟨⟨d, t', b⟩, hmem, ht⟩
  rcases mem_generate_moves.mp hmem with ⟨δ, hdir, hb, hleg, ht'⟩
  cases ht
  exact ⟨b, δ, d, hdir, hb, hleg, ht'⟩

/-- The deltas of `DIRECTIONS`. -/
theorem dir_delta_cases {d : Char} {δ : Pos} (h : (d, δ) ∈ DIRECTIONS) :
    δ = (0, -1) ∨ δ = (0, 1) ∨ δ = (-1, 0) ∨ δ = (1, 0) := by
  simp only [DIRECTIONS, List.mem_cons, List.not_mem_nil, or_false,
    Prod.mk.injEq] at h
  rcases h with ⟨_, h⟩ | ⟨_, h⟩ | ⟨_, h⟩ | ⟨_, h⟩ <;> simp [h]

/-- A push preserves the wall-disjointness of the box set. -/
theorem stepTo_boxes_not_wall {ps : PuzzleStatic} {s t : State}
    (h : StepTo ps s t) (hw : ∀ x ∈ s.boxes, x ∉ ps.walls) :
    ∀ x ∈ t.boxes, x ∉ ps.walls := by
  rcases stepTo_elim h with ⟨b, δ, d, _, hb, hleg, ht⟩
  subst ht
  intro x hx
  rcases Finset.mem_insert.mp hx with hx | hx
  · subst hx
    intro hxx
    exact hleg.2.1 (Finset.mem_union_left _ hxx)
  · exact hw x (Finset.mem_of_mem_erase hx)

/-- After a push the player stands on a former box square; if boxes avoid
walls, so does the new player position. -/
theorem stepTo_player_not_wall {ps : PuzzleStatic} {s t : State}
    (h : StepTo ps s t) (hw : ∀ x ∈ s.boxes, x ∉ ps.walls) :
    t.player_pos ∉ ps.walls := by
  rcases stepTo_elim h with ⟨b, δ, d, _, hb, hleg, ht⟩
  subst ht
  exact hw b hb

/-- Spelled-out form of `is_corner_deadlock`: a non-goal square with two
orthogonally adjacent wall neighbours. -/
theorem is_corner_deadlock_iff {pos : Pos} {walls goals : Finset Pos} :
    is_corner_deadlock pos walls goals = true ↔
      pos ∉ goals ∧
        (((pos.1, pos.2 - 1) ∈ walls ∧ (pos.1 - 1, pos.2) ∈ walls) ∨
          ((pos.1, pos.2 - 1) ∈ walls ∧ (pos.1 + 1, pos.2) ∈ walls) ∨
          ((pos.1, pos.2 + 1) ∈ walls ∧ (pos.1 - 1, pos.2) ∈ walls) ∨
          ((pos.1, pos.2 + 1) ∈ walls ∧ (pos.1 + 1, pos.2) ∈ walls)) := by
  unfold is_corner_deadlock
  split
  · rename_i hgl
    simp [hgl]
  · rename_i hgl
    simp [hgl]

/-- A box on a corner-deadlock square can never be pushed: whichever
direction is attempted, either the destination is one of the two corner
walls, or the push-from square is one of them (and walls are unreachable
for the player). -/
theorem corner_box_not_pushable {ps : PuzzleStatic} {s : State} {b0 δ : Pos}
    {d : Char} (hdir : (d, δ) ∈ DIRECTIONS)
    (hplayer : s.player_pos ∉ ps.walls)
    (hcorner : is_corner_deadlock b0 ps.walls ps.goals = true) :
    ¬ pushLegal s ps
        (get_reachable_positions s.player_pos s.boxes ps.walls
          ps.width ps.height) b0 δ := by
  intro hleg
  obtain ⟨hreach, hto, _⟩ := hleg
  have hfrom_not_wall : (b0.1 - δ.1, b0.2 - δ.2) ∉ ps.walls :=
    get_reachable_positions_not_wall hplayer hreach
  have hto_not_wall : (b0.1 + δ.1, b0.2 + δ.2) ∉ ps.walls := fun hw =>
    hto (Finset.mem_union_left _ hw)
  obtain ⟨-, hwalls⟩ := is_corner_deadlock_iff.mp hcorner
  rcases dir_delta_cases hdir with h | h | h | h <;> subst h
  · have hup : (b0.1, b0.2 - 1) ∉ ps.walls := fun hw =>
      hto_not_wall (by convert hw using 2 <;> ring)
    have hdown : (b0.1, b0.2 + 1) ∉ ps.walls := fun hw =>
      hfrom_not_wall (by convert hw using 2 <;> ring)
    rcases hwalls with ⟨h1, h2⟩ | ⟨h1, h2⟩ | ⟨h1, h2⟩ | ⟨h1, h2⟩
    exacts [hup h1, hup h1, hdown h1, hdown h1]
  · have hup : (b0.1, b0.2 - 1) ∉ ps.walls := fun hw =>
      hfrom_not_wall (by convert hw using 2 <;> ring)
    have hdown : (b0.1, b0.2 + 1) ∉ ps.walls := fun hw =>
      hto_not_wall (by convert hw using 2 <;> ring)
    rcases hwalls with ⟨h1, h2⟩ | ⟨h1, h2⟩ | ⟨h1, h2⟩ | ⟨h1, h2⟩
    exacts [hup h1, hup h1, hdown h1, hdown h1]
  · have hleft : (b0.1 - 1, b0.2) ∉ ps.walls := fun hw =>
      hto_not_wall (by convert hw using 2 <;> ring)
    have hright : (b0.1 + 1, b0.2) ∉ ps.walls := fun hw =>
      hfrom_not_wall (by convert hw using 2 <;> ring)
    rcases hwalls with ⟨h1, h2⟩ | ⟨h1, h2⟩ | ⟨h1, h2⟩ | ⟨h1, h2⟩
    exacts [hleft h2, hright h2, hleft h2, hright h2]
  · have hleft : (b0.1 - 1, b0.2) ∉ ps.walls := fun hw =>
      hfrom_not_wall (by convert hw using 2 <;> ring)
    have hright : (b0.1 + 1, b0.2) ∉ ps.walls := fun hw =>
      hto_not_wall (by convert hw using 2 <;> ring)
    rcases hwalls with ⟨h1, h2⟩ | ⟨h1, h2⟩ | ⟨h1, h2⟩ | ⟨h1, h2⟩
    exacts [hleft h2, hright h2, hleft h2, hright h2]

/-- Along any sequence of legal pushes from a state whose player and boxes
avoid walls, a box sitting on a corner-deadlock square stays where it is. -/
theorem corner_box_persists {ps : PuzzleStatic} {s t : State} {n : ℕ} {b0 : Pos}
    (hsteps : Steps ps s n t)
    (hcorner : is_corner_deadlock b0 ps.walls ps.goals = true) :
    s.player_pos ∉ ps.walls → (∀ x ∈ s.boxes, x ∉ ps.walls) → b0 ∈ s.boxes →
    b0 ∈ t.boxes := by
  induction hsteps with
  | refl s => exact fun _ _ hb0 => hb0
  | head hstep _ ih =>
    intro hplayer hw hb0
    have hplayer' := stepTo_player_not_wall hstep hw
    have hw' := stepTo_boxes_not_wall hstep hw
    rcases stepTo_elim hstep with ⟨b, δ, d, hdir, hb, hleg, hu⟩
    have hbne : b ≠ b0 := by
      intro hbb
      subst hbb
      exact corner_box_not_pushable hdir hplayer hcorner hleg
    refine ih hplayer' hw' ?_
    subst hu
    exact Finset.mem_insert_of_mem (Finset.mem_erase.mpr ⟨(Ne.symm hbne), hb0⟩)

/-- Soundness of the precomputed corner-square deadlocks: if some box of `s`
sits on a square of `compute_static_deadlocks`, no sequence of legal pushes
from `s` reaches a state whose boxes coincide with the goals. -/
theorem compute_static_deadlocks_sound {ps : PuzzleStatic} {s t : State}
    {n : ℕ} {b0 : Pos} (hplayer : s.player_pos ∉ ps.walls)
    (hw : ∀ x ∈ s.boxes, x ∉ ps.walls) (hb0 : b0 ∈ s.boxes)
    (hdead : b0 ∈ compute_static_deadlocks ps.walls ps.goals ps.width ps.height)
    (hsteps : Steps ps s n t) : t.boxes ≠ ps.goals := by
  rw [compute_static_deadlocks, Finset.mem_filter] at hdead
  obtain ⟨-, -, hb0goal, hcorner⟩ := hdead
  have hpers := corner_box_persists hsteps hcorner hplayer hw hb0
  intro hgoal
  exact hb0goal (hgoal ▸ hpers)

/-- After any push the player stands on the pushed box's old square, which
is no longer a box: the player is never on a box. -/
theorem stepTo_player_not_box {ps : PuzzleStatic} {s t : State}
    (h : StepTo ps s t) : t.player_pos ∉ t.boxes := by
  rcases stepTo_elim h with ⟨x, δ, d, hdir, hx, hleg, ht⟩
  subst ht
  intro hmem
  simp only [pushResult] at hmem
  rcases Finset.mem_insert.mp hmem with h1 | h1
  · have e1 := congrArg Prod.fst h1
    have e2 := congrArg Prod.snd h1
    simp only [] at e1 e2
    rcases dir_delta_cases hdir with h | h | h | h <;> subst h <;>
      simp only [] at e1 e2 <;> omega
  · exact (Finset.mem_erase.mp h1).1 rfl

/-- Spelled-out form of `is_2x2_deadlock`: some box is the top-left corner
of a 2x2 block of boxes not entirely on goals. -/
theorem is_2x2_deadlock_iff {boxes walls goals : Finset Pos} :
    is_2x2_deadlock boxes walls goals = true ↔
      ∃ b ∈ boxes,
        ((b.1, b.2) ∈ boxes ∧ (b.1 + 1, b.2) ∈ boxes ∧
          (b.1, b.2 + 1) ∈ boxes ∧ (b.1 + 1, b.2 + 1) ∈ boxes) ∧
        ¬ ((b.1, b.2) ∈ goals ∧ (b.1 + 1, b.2) ∈ goals ∧
          (b.1, b.2 + 1) ∈ goals ∧ (b.1 + 1, b.2 + 1) ∈ goals) := by
  rw [is_2x2_deadlock, List.any_eq_true]
  constructor
  · rintro ⟨b, hb, hcond⟩
    rw [mem_finsetToList] at hb
    simp only [List.all_cons, List.all_nil, Bool.and_eq_true, Bool.and_true,
      Bool.not_eq_true', Bool.and_eq_false_iff, decide_eq_true_eq,
      decide_eq_false_iff_not] at hcond
    refine ⟨b, hb, ⟨hcond.1.1, hcond.1.2.1, hcond.1.2.2.1, hcond.1.2.2.2⟩, ?_⟩
    intro ⟨g1, g2, g3, g4⟩
    rcases hcond.2 with h | h | h | h <;> exact h (by assumption)
  · rintro ⟨b, hb, ⟨b1, b2, b3, b4⟩, hng⟩
    refine ⟨b, mem_finsetToList.mpr hb, ?_⟩
    simp only [List.all_cons, List.all_nil, Bool.and_eq_true, Bool.and_true,
      Bool.not_eq_true', Bool.and_eq_false_iff, decide_eq_true_eq,
      decide_eq_false_iff_not]
    refine ⟨⟨b1, b2, b3, b4⟩, ?_⟩
    by_contra hall
    push_neg at hall
    exact hng ⟨hall.1, hall.2.1, hall.2.2.1, hall.2.2.2⟩

/-- A box belonging to a 2x2 block of boxes can never be pushed: whichever
direction is attempted, either the destination or the push-from square is
another cell of the block, which is a box (and the player never stands on a
box, so a box square is never player-reachable). -/
theorem square_box_not_pushable {ps : PuzzleStatic} {s : State} {b x δ : Pos}
    {d : Char} (hdir : (d, δ) ∈ DIRECTIONS)
    (hpb : s.player_pos ∉ s.boxes)
    (hsq : (b.1, b.2) ∈ s.boxes ∧ (b.1 + 1, b.2) ∈ s.boxes ∧
      (b.1, b.2 + 1) ∈ s.boxes ∧ (b.1 + 1, b.2 + 1) ∈ s.boxes)
    (hx : x = (b.1, b.2) ∨ x = (b.1 + 1, b.2) ∨ x = (b.1, b.2 + 1) ∨
      x = (b.1 + 1, b.2 + 1)) :
    ¬ pushLegal s ps
        (get_reachable_positions s.player_pos s.boxes ps.walls
          ps.width ps.height) x δ := by
  intro hleg
  obtain ⟨hreach, hto, -⟩ := hleg
  have hto_not_box : (x.1 + δ.1, x.2 + δ.2) ∉ s.boxes := fun h =>
    hto (Finset.mem_union_right _ h)
  have hfrom_not_box : (x.1 - δ.1, x.2 - δ.2) ∉ s.boxes := by
    intro h
    rcases mem_reachAux _ _ _ _ hreach with h1 | h1
    · rw [Finset.mem_singleton] at h1
      exact hpb (h1 ▸ h)
    · exact h1 (Finset.mem_union_right _ h)
  obtain ⟨h00, h10, h01, h11⟩ := hsq
  rcases dir_delta_cases hdir with h | h | h | h <;> subst h
  · rcases hx with h | h | h | h <;> subst h
    · exact hfrom_not_box (by convert h01 using 2 <;> ring)
    · exact hfrom_not_box (by convert h11 using 2 <;> ring)
    · exact hto_not_box (by convert h00 using 2 <;> ring)
    · exact hto_not_box (by convert h10 using 2 <;> ring)
  · rcases hx with h | h | h | h <;> subst h
    · exact hto_not_box (by convert h01 using 2 <;> ring)
    · exact hto_not_box (by convert h11 using 2 <;> ring)
    · exact hfrom_not_box (by convert h00 using 2 <;> ring)
    · exact hfrom_not_box (by convert h10 using 2 <;> ring)
  · rcases hx with h | h | h | h <;> subst h
    · exact hfrom_not_box (by convert h10 using 2 <;> ring)
    · exact hto_not_box (by convert h00 using 2 <;> ring)
    · exact hfrom_not_box (by convert h11 using 2 <;> ring)
    · exact hto_not_box (by convert h01 using 2 <;> ring)
  · rcases hx with h | h | h | h <;> subst h
    · exact hto_not_box (by convert h10 using 2 <;> ring)
    · exact hfrom_not_box (by convert h00 using 2 <;> ring)
    · exact hto_not_box (by convert h11 using 2 <;> ring)
    · exact hfrom_not_box (by convert h01 using 2 <;> ring)

/-- Along any sequence of legal pushes, a 2x2 block of boxes stays in
place: none of its four boxes can be pushed, so every push moves some other
box and keeps all four cells occupied. -/
theorem square_persists {ps : PuzzleStatic} {s t : State} {n : ℕ} {b : Pos}
    (hsteps : Steps ps s n t) :
    s.player_pos ∉ s.boxes →
    ((b.1, b.2) ∈ s.boxes ∧ (b.1 + 1, b.2) ∈ s.boxes ∧
      (b.1, b.2 + 1) ∈ s.boxes ∧ (b.1 + 1, b.2 + 1) ∈ s.boxes) →
    ((b.1, b.2) ∈ t.boxes ∧ (b.1 + 1, b.2) ∈ t.boxes ∧
      (b.1, b.2 + 1) ∈ t.boxes ∧ (b.1 + 1, b.2 + 1) ∈ t.boxes) := by
  induction hsteps with
  | refl s => exact fun _ h => h
  | head hstep hrest ih =>
    rename_i s1 u1 t1 n1
    intro hpb hsq
    have hpb' : u1.player_pos ∉ u1.boxes := stepTo_player_not_box hstep
    rcases stepTo_elim hstep with ⟨x, δ, d, hdir, hxmem, hleg, hu⟩
    have hxnot : ¬ (x = (b.1, b.2) ∨ x = (b.1 + 1, b.2) ∨
        x = (b.1, b.2 + 1) ∨ x = (b.1 + 1, b.2 + 1)) :=
      fun hx => square_box_not_pushable hdir hpb hsq hx hleg
    push_neg at hxnot
    obtain ⟨hx1, hx2, hx3, hx4⟩ := hxnot
    obtain ⟨h00, h10, h01, h11⟩ := hsq
    refine ih hpb' ?_
    subst hu
    refine ⟨Finset.mem_insert_of_mem (Finset.mem_erase.mpr ⟨?_, h00⟩),
      Finset.mem_insert_of_mem (Finset.mem_erase.mpr ⟨?_, h10⟩),
      Finset.mem_insert_of_mem (Finset.mem_erase.mpr ⟨?_, h01⟩),
      Finset.mem_insert_of_mem (Finset.mem_erase.mpr ⟨?_, h11⟩)⟩
    · exact fun h => hx1 h.symm
    · exact fun h => hx2 h.symm
    · exact fun h => hx3 h.symm
    · exact fun h => hx4 h.symm

/-- Soundness of the 2x2 check: when `is_2x2_deadlock` fires on a state
whose player is not standing on a box, no sequence of legal pushes reaches a
state whose boxes coincide with the goals. -/
theorem is_2x2_deadlock_sound {ps : PuzzleStatic} {s t : State} {n : ℕ}
    (hpb : s.player_pos ∉ s.boxes)
    (h2 : is_2x2_deadlock s.boxes ps.walls ps.goals = true)
    (hsteps : Steps ps s n t) : t.boxes ≠ ps.goals := by
  rcases is_2x2_deadlock_iff.mp h2 with ⟨b, hbmem, hsq, hngoals⟩
  have hfinal := square_persists hsteps hpb hsq
  intro hgl
  rw [hgl] at hfinal
  exact hngoals hfinal

/-- A push relocates exactly one box: the successor box set keeps the same
cardinality.  It also stays disjoint from the walls when the parent's was. -/
theorem stepTo_card_and_walls {ps : PuzzleStatic} {s : State}
    {m : Char × State × Pos} (hm : m ∈ generate_moves s ps)
    (hw : ∀ x ∈ s.boxes, x ∉ ps.walls) :
    m.2.1.boxes.card = s.boxes.card ∧ ∀ x ∈ m.2.1.boxes, x ∉ ps.walls := by
  obtain ⟨d, t, b⟩ := m
  rcases mem_generate_moves.mp hm with ⟨δ, hdir, hb, hleg, ht⟩
  subst ht
  have hto_not_box : (b.1 + δ.1, b.2 + δ.2) ∉ s.boxes := fun hx =>
    hleg.2.1 (Finset.mem_union_right _ hx)
  constructor
  · show (insert (b.1 + δ.1, b.2 + δ.2) (s.boxes.erase b)).card = s.boxes.card
    rw [Finset.card_insert_of_not_mem
      (fun hx => hto_not_box (Finset.mem_of_mem_erase hx))]
    exact Finset.card_erase_add_one hb
  · intro x hx
    rcases Finset.mem_insert.mp hx with hx | hx
    · subst hx
      exact fun hxx => hleg.2.1 (Finset.mem_union_left _ hxx)
    · exact hw x (Finset.mem_of_mem_erase hx)

/-- Grid-square membership in coordinates. -/
theorem mem_gridSquares {width height : ℕ} {p : Pos} :
    p ∈ gridSquares width height ↔
      0 ≤ p.1 ∧ p.1 < (width : ℤ) ∧ 0 ≤ p.2 ∧ p.2 < (height : ℤ) := by
  constructor
  · intro hp
    rw [gridSquares, Finset.mem_image] at hp
    rcases hp with ⟨q, hq, hqp⟩
    rw [Finset.mem_product, Finset.mem_range, Finset.mem_range] at hq
    subst hqp
    refine ⟨Int.ofNat_nonneg q.1, ?_, Int.ofNat_nonneg q.2, ?_⟩
    · show (q.1 : ℤ) < (width : ℤ)
      exact_mod_cast hq.1
    · show (q.2 : ℤ) < (height : ℤ)
      exact_mod_cast hq.2
  · intro ⟨h1, h2, h3, h4⟩
    rw [gridSquares, Finset.mem_image]
    refine ⟨(p.1.toNat, p.2.toNat), ?_, ?_⟩
    · rw [Finset.mem_product, Finset.mem_range, Finset.mem_range]
      constructor <;> omega
    · have e1 : ((p.1.toNat : ℤ)) = p.1 := Int.toNat_of_nonneg h1
      have e2 : ((p.2.toNat : ℤ)) = p.2 := Int.toNat_of_nonneg h3
      exact Prod.ext e1 e2

/-- Free-square membership in coordinates. -/
theorem mem_freeSquares {walls : Finset Pos} {width height : ℕ} {p : Pos} :
    p ∈ freeSquares walls width height ↔
      (0 ≤ p.1 ∧ p.1 < (width : ℤ) ∧ 0 ≤ p.2 ∧ p.2 < (height : ℤ)) ∧
        p ∉ walls := by
  rw [freeSquares, Finset.mem_filter, mem_gridSquares]

/-- `inBoundsB` agrees with grid-square membership. -/
theorem inBoundsB_iff {width height : ℕ} {p : Pos} :
    inBoundsB width height p = true ↔
      0 ≤ p.1 ∧ p.1 < (width : ℤ) ∧ 0 ≤ p.2 ∧ p.2 < (height : ℤ) := by
  rw [inBoundsB]
  simp [and_assoc]

/-- Every line's length is bounded by the running maximum the parser pads
to. -/
theorem le_maxLineLength (ls : List (List Char)) :
    ∀ l ∈ ls, l.length ≤ maxLineLength ls := by
  induction ls with
  | nil => intro l h; cases h
  | cons a as ih =>
    intro l h
    rcases List.mem_cons.mp h with h | h
    · subst h
      exact le_max_left _ _
    · exact le_trans (ih l h) (le_max_right _ _)

/-- Padding to at least the line's length yields exactly the target width. -/
theorem ljust_length {l : List Char} {w : ℕ} (h : l.length ≤ w) :
    (ljust l w).length = w := by
  rw [ljust, List.length_append, List.length_replicate]
  omega

/-- The original characters survive as the prefix of the padded row. -/
theorem ljust_take (l : List Char) (w : ℕ) : (ljust l w).take l.length = l := by
  rw [ljust, List.take_left]

/-- Everything past the original characters is space padding. -/
theorem ljust_drop (l : List Char) (w : ℕ) :
    (ljust l w).drop l.length = List.replicate (w - l.length) ' ' := by
  rw [ljust, List.drop_left]

/-- The parser returns the empty grid exactly when trimming leaves no
lines. -/
theorem parse_puzzle_string_eq_nil {s : List Char} :
    parse_puzzle_string s = [] ↔
      dropLeadingBlanks (dropTrailingBlanks (splitLines s)) = [] := by
  rw [parse_puzzle_string]
  split
  · rename_i h
    simp [h]
  · rename_i h
    simp [h]

/-- Every `.ok` result the expansion loop produces is a failure record: the
success returns of the source loop sit inside the `for` statement that the
tuple-arity mismatch aborts, so they are unreachable. -/
theorem solveLoop_ok_success {ps : PuzzleStatic} {ms : ℕ} :
    ∀ (fuel : ℕ) (q : List Entry) (c : Finset State) (se : ℕ)
      (r : SolveResult), solveLoop ps ms fuel q c se = .ok r →
      r.success = false ∧ r.solution = none ∧
        (r.reason = some .unsolvable ∨ r.reason = some .timeout) := by
  intro fuel
  induction fuel with
  | zero =>
    intro q c se r h
    exact absurd h (by simp [solveLoop])
  | succ fuel ih =>
    intro q c se r h
    rw [solveLoop] at h
    split at h
    · injection h with h
      subst h
      exact ⟨rfl, rfl, Or.inl rfl⟩
    · split at h
      · injection h with h
        subst h
        exact ⟨rfl, rfl, Or.inr rfl⟩
      · split at h
        · exact ih _ _ _ _ h
        · split at h
          · exact ih _ _ _ _ h
          · exact absurd h (by simp)

/-- A successful `solve` result can only be the immediate already-solved
return: empty solution, zero states explored, and the initial boxes already
on the goals. -/
theorem solve_ok_success {initial : State} {ps : PuzzleStatic} {ms : ℕ}
    {r : SolveResult} (h : solve initial ps ms = .ok r)
    (hs : r.success = true) :
    r = ⟨true, some [], none, none, some 0, some true⟩ ∧
      initial.boxes = ps.goals := by
  rw [solve] at h
  split at h
  · rename_i hgoal
    injection h with h
    subst h
    exact ⟨rfl, of_decide_eq_true hgoal⟩
  · rw [show ∀ a b : Except String SolveResult,
        (let hv := distance_heuristic initial.boxes ps.goals
          (precompute_goal_distances ps.walls ps.goals ps.width ps.height);
          if hv = ⊤ then a else b) =
        if distance_heuristic initial.boxes ps.goals
          (precompute_goal_distances ps.walls ps.goals ps.width ps.height) = ⊤
          then a else b from fun a b => rfl] at h
    split at h
    · injection h with h
      subst h
      exact absurd hs (by simp)
    · obtain ⟨hfalse, -⟩ := solveLoop_ok_success _ _ _ _ _ h
      rw [hfalse] at hs
      cases hs

/-- The enumeration of a position set has as many entries as the set. -/
theorem finsetToList_length (s : Finset Pos) :
    (finsetToList s).length = s.card := by
  rcases s with ⟨m, hm⟩
  induction m using Quot.ind with
  | _ l =>
    show (l.insertionSort posLe).length = _
    rw [(l.perm_insertionSort posLe).length_eq]
    rfl

/-- The four BFS neighbours of a square, spelled out. -/
theorem mem_goalNbrs {p q : Pos} :
    q ∈ goalNbrs p ↔
      q = (p.1, p.2 + 1) ∨ q = (p.1, p.2 - 1) ∨
        q = (p.1 + 1, p.2) ∨ q = (p.1 - 1, p.2) := by
  simp only [goalNbrs, FOUR_DIRS, List.map_cons, List.map_nil, List.mem_cons,
    List.not_mem_nil, or_false]
  constructor
  · rintro (h | h | h | h) <;> subst h <;> simp [Prod.ext_iff] <;> ring
  · rintro (h | h | h | h) <;> subst h <;> simp [Prod.ext_iff] <;> omega

/-- The four BFS neighbours of a square are pairwise distinct. -/
theorem goalNbrs_nodup (p : Pos) : (goalNbrs p).Nodup := by
  simp only [goalNbrs, FOUR_DIRS, List.map_cons, List.map_nil]
  refine List.nodup_cons.mpr ⟨?_, List.nodup_cons.mpr ⟨?_,
    List.nodup_cons.mpr ⟨?_, List.nodup_singleton _⟩⟩⟩ <;>
    simp [Prod.ext_iff] <;> omega

/-- Being a neighbour is symmetric for the BFS adjacency. -/
theorem mem_goalNbrs_symm {p q : Pos} (h : q ∈ goalNbrs p) : p ∈ goalNbrs q := by
  rw [mem_goalNbrs] at h ⊢
  rcases h with h | h | h | h <;> subst h <;> simp [Prod.ext_iff] <;> omega

/-- The goal-distance BFS only ever appends to its distance table. -/
theorem bfsGoalAux_prefix (walls : Finset Pos) (width height : ℕ) :
    ∀ (fuel : ℕ) (queue : List (Pos × ℕ)) (visited : Finset Pos)
      (dist : List (Pos × ℕ)),
      ∃ t, bfsGoalAux walls width height fuel queue visited dist = dist ++ t := by
  intro fuel
  induction fuel with
  | zero =>
    intro queue visited dist
    cases queue with
    | nil => exact ⟨[], by simp [bfsGoalAux]⟩
    | cons a q => exact ⟨[], by simp [bfsGoalAux]⟩
  | succ fuel ih =>
    intro queue visited dist
    cases queue with
    | nil => exact ⟨[], by simp [bfsGoalAux]⟩
    | cons a q =>
      obtain ⟨p, d⟩ := a
      rw [bfsGoalAux]
      obtain ⟨t, ht⟩ := ih _ _ (dist ++ [(p, d)])
      exact ⟨(p, d) :: t, by rw [ht]; simp⟩

/-- `find?` on an association list with distinct keys returns exactly the
entry present. -/
theorem find?_of_key_nodup {α : Type} [DecidableEq α] {β : Type} :
    ∀ {l : List (α × β)}, (l.map Prod.fst).Nodup →
      ∀ {p : α} {v : β}, (p, v) ∈ l →
      l.find? (fun e => decide (e.1 = p)) = some (p, v) := by
  intro l
  induction l with
  | nil => intro _ p v h; cases h
  | cons e rest ih =>
    intro hnd p v h
    rw [List.map_cons, List.nodup_cons] at hnd
    by_cases hkey : e.1 = p
    · have hev : e = (p, v) := by
        rcases List.mem_cons.mp h with h | h
        · exact h.symm
        · exact absurd (hkey ▸ List.mem_map_of_mem Prod.fst h) hnd.1
      rw [List.find?_cons, hev]
      simp
    · rw [List.find?_cons]
      have : (decide (e.1 = p)) = false := by simp [hkey]
      rw [this]
      rcases List.mem_cons.mp h with h | h
      · exact absurd (congrArg Prod.fst h.symm) hkey
      · exact ih hnd.2 h

/-- Lists whose elements are all one value are sorted. -/
theorem sorted_of_all_eq {l : List ℕ} {c : ℕ} (h : ∀ x ∈ l, x = c) :
    l.Sorted (· ≤ ·) := by
  induction l with
  | nil => exact List.sorted_nil
  | cons a as ih =>
    rw [List.sorted_cons]
    refine ⟨?_, ih fun x hx => h x (List.mem_cons_of_mem _ hx)⟩
    intro b hb
    rw [h a (List.mem_cons_self _ _), h b (List.mem_cons_of_mem _ hb)]

/-- Main induction for the goal-distance BFS: from a state satisfying the
loop invariant with enough fuel to drain the queue, the resulting table has
distinct keys and is closed under free neighbours with distances growing by
at most one. -/
theorem bfsGoalAux_spec (walls : Finset Pos) (width height : ℕ) :
    ∀ (fuel : ℕ) (queue : List (Pos × ℕ)) (visited : Finset Pos)
      (dist : List (Pos × ℕ)),
      BfsInv walls width height queue visited dist →
      queue.length + 5 * ((freeSquares walls width height \ visited).card) ≤
        fuel →
      BfsFinal walls width height
        (bfsGoalAux walls width height fuel queue visited dist) := by
  have final_of_nil : ∀ (visited : Finset Pos) (dist : List (Pos × ℕ)),
      BfsInv walls width height [] visited dist →
      BfsFinal walls width height dist := by
    intro visited dist hinv
    constructor
    · have := hinv.nodup
      simpa using this
    · intro pd hpd q hq hqf
      rcases hinv.closed pd hpd q hq hqf with ⟨dq, hle, hmem | hmem⟩
      · exact ⟨dq, hle, hmem⟩
      · cases hmem
  intro fuel
  induction fuel with
  | zero =>
    intro queue visited dist hinv hfuel
    cases queue with
    | nil => exact final_of_nil _ _ hinv
    | cons a q => simp at hfuel
  | succ fuel ih =>
    intro queue visited dist hinv hfuel
    cases queue with
    | nil => exact final_of_nil _ _ hinv
    | cons hd rest =>
      obtain ⟨p, dp⟩ := hd
      simp only [bfsGoalAux]
      set ns := (goalNbrs p).filter fun q =>
        inBoundsB width height q && decide (q ∉ walls) &&
          decide (q ∉ visited) with hns_def
      set nsq := ns.map (fun q => (q, dp + 1)) with hnsq_def
      -- Basic facts about the freshly discovered squares.
      have hns_mem : ∀ q ∈ ns, q ∈ freeSquares walls width height ∧
          q ∉ visited := by
        intro q hq
        rw [hns_def, List.mem_filter] at hq
        obtain ⟨-, hq⟩ := hq
        simp only [Bool.and_eq_true, decide_eq_true_eq] at hq
        exact ⟨mem_freeSquares.mpr ⟨inBoundsB_iff.mp hq.1.1, hq.1.2⟩, hq.2⟩
      have hns_nodup : ns.Nodup := (goalNbrs_nodup p).filter _
      have hns_len : ns.length ≤ 4 := by
        rw [hns_def]
        have h1 := List.length_filter_le (fun q =>
          inBoundsB width height q && decide (q ∉ walls) &&
            decide (q ∉ visited)) (goalNbrs p)
        have h2 : (goalNbrs p).length = 4 := by
          rw [goalNbrs, FOUR_DIRS]
          rfl
        omega
      have hnsF_sub : ns.toFinset ⊆
          freeSquares walls width height \ visited := by
        intro q hq
        rw [List.mem_toFinset] at hq
        exact Finset.mem_sdiff.mpr (hns_mem q hq)
      have hnsF_card : ns.toFinset.card = ns.length :=
        List.toFinset_card_of_nodup hns_nodup
      -- Facts inherited from the invariant.
      have hvis := hinv.vis_eq
      have hnd := hinv.nodup
      have hsort := hinv.sorted
      have hspread := hinv.spread
      have hqfree := hinv.qfree
      have hp_visited : p ∈ visited := by
        rw [hvis]
        exact Finset.mem_union_right _ (by simp)
      have hold_visited : ∀ x ∈ (dist ++ (p, dp) :: rest).map Prod.fst,
          x ∈ visited := by
        intro x hx
        rw [List.map_append, List.mem_append] at hx
        rw [hvis]
        rcases hx with hx | hx
        · exact Finset.mem_union_left _ (List.mem_toFinset.mpr hx)
        · exact Finset.mem_union_right _ (List.mem_toFinset.mpr hx)
      -- Value bounds from sortedness and the two-level spread.
      have hsort_parts := List.pairwise_append.mp (by
        simpa only [List.map_append, List.map_cons] using hsort)
      have hdist_le_dp : ∀ a ∈ dist.map Prod.snd, a ≤ dp :=
        fun a ha => hsort_parts.2.2 a ha dp (by simp)
      have hdp_le_rest : ∀ a ∈ rest.map Prod.snd, dp ≤ a := by
        intro a ha
        have := List.pairwise_cons.mp hsort_parts.2.1
        exact this.1 a ha
      have hrest_le : ∀ a ∈ rest.map Prod.snd, a ≤ dp + 1 := by
        intro a ha
        exact hspread a (by simp [ha]) dp (by simp)
      have hold_le : ∀ a ∈ (dist ++ (p, dp) :: rest).map Prod.snd,
          a ≤ dp + 1 := by
        intro a ha
        rw [List.map_append, List.mem_append] at ha
        rcases ha with ha | ha
        · exact le_trans (hdist_le_dp a ha) (Nat.le_succ dp)
        · rw [List.map_cons, List.mem_cons] at ha
          rcases ha with ha | ha
          · omega
          · exact hrest_le a ha
      -- The new state satisfies the invariant.
      have hinv' : BfsInv walls width height (rest ++ nsq)
          (visited ∪ ns.toFinset) (dist ++ [(p, dp)]) := by
        have hnsq_fst : nsq.map Prod.fst = ns := by
          have hcomp : (Prod.fst ∘ fun q : Pos => (q, dp + 1)) = id := rfl
          rw [hnsq_def, List.map_map, hcomp, List.map_id]
        have hnsq_snd : ∀ a ∈ nsq.map Prod.snd, a = dp + 1 := by
          intro a ha
          rw [hnsq_def, List.map_map] at ha
          rcases List.mem_map.mp ha with ⟨q, -, hq⟩
          exact hq.symm
        constructor
        · rw [hvis]
          simp only [List.map_append, List.map_cons, List.map_nil,
            List.toFinset_append, List.toFinset_cons, hnsq_fst]
          ext x
          simp only [Finset.mem_union, Finset.mem_insert, List.mem_toFinset,
            List.toFinset_nil, Finset.mem_insert_coe]
          constructor
          · intro hx
            tauto
          · intro hx
            tauto
        · have hreassoc : (dist ++ [(p, dp)]) ++ (rest ++ nsq) =
              (dist ++ (p, dp) :: rest) ++ nsq := by simp
          rw [hreassoc, List.map_append, hnsq_fst]
          refine List.Nodup.append hnd hns_nodup ?_
          intro x hx hxns
          exact (hns_mem x hxns).2 (hold_visited x hx)
        · have hreassoc : (dist ++ [(p, dp)]) ++ (rest ++ nsq) =
              (dist ++ (p, dp) :: rest) ++ nsq := by simp
          rw [hreassoc, List.map_append]
          refine List.pairwise_append.mpr ⟨hsort, sorted_of_all_eq hnsq_snd, ?_⟩
          intro a ha b hb
          rw [hnsq_snd b hb]
          exact hold_le a ha
        · intro x hx y hy
          rw [List.map_append, List.mem_append] at hx hy
          rcases hx with hx | hx <;> rcases hy with hy | hy
          · exact hspread x (by simp [hx]) y (by simp [hy])
          · rw [hnsq_snd y hy]
            have := hrest_le x hx
            omega
          · rw [hnsq_snd x hx]
            have := hdp_le_rest y hy
            omega
          · rw [hnsq_snd x hx, hnsq_snd y hy]
            omega
        · intro pd hpd q hq hqf
          rw [List.mem_append] at hpd
          rcases hpd with hpd | hpd
          · rcases hinv.closed pd hpd q hq hqf with ⟨dq, hle, hmem | hmem⟩
            · exact ⟨dq, hle, Or.inl (List.mem_append_left _ hmem)⟩
            · rcases List.mem_cons.mp hmem with hmem | hmem
              · refine ⟨dq, hle, Or.inl (List.mem_append_right _ ?_)⟩
                rw [hmem]
                simp
              · exact ⟨dq, hle, Or.inr (List.mem_append_left _ hmem)⟩
          · rcases List.mem_singleton.mp hpd with rfl
            by_cases hqv : q ∈ visited
            · rw [hvis] at hqv
              rcases Finset.mem_union.mp hqv with hqv | hqv
              · rw [List.mem_toFinset] at hqv
                rcases List.mem_map.mp hqv with ⟨e, he, hfst⟩
                refine ⟨e.2, ?_, Or.inl (List.mem_append_left _ ?_)⟩
                · exact le_trans (hdist_le_dp e.2 (List.mem_map_of_mem _ he))
                    (Nat.le_succ dp)
                · have : e = (q, e.2) := by
                    rw [← hfst]
                  rw [← this]
                  exact he
              · rw [List.mem_toFinset, List.map_cons, List.mem_cons] at hqv
                rcases hqv with hqv | hqv
                · refine ⟨dp, Nat.le_succ dp,
                    Or.inl (List.mem_append_right _ ?_)⟩
                  rw [hqv]
                  simp
                · rcases List.mem_map.mp hqv with ⟨e, he, hfst⟩
                  refine ⟨e.2, ?_, Or.inr (List.mem_append_left _ ?_)⟩
                  · exact hrest_le e.2 (List.mem_map_of_mem _ he)
                  · have : e = (q, e.2) := by
                      rw [← hfst]
                    rw [← this]
                    exact he
            · have hqns : q ∈ ns := by
                rw [hns_def, List.mem_filter]
                obtain ⟨hbounds, hnw⟩ := mem_freeSquares.mp hqf
                refine ⟨hq, ?_⟩
                simp only [Bool.and_eq_true, decide_eq_true_eq]
                exact ⟨⟨inBoundsB_iff.mpr hbounds, hnw⟩, hqv⟩
              refine ⟨dp + 1, le_refl _, Or.inr (List.mem_append_right _ ?_)⟩
              rw [hnsq_def]
              exact List.mem_map_of_mem _ hqns
        · intro pd hpd
          rw [List.mem_append] at hpd
          rcases hpd with hpd | hpd
          · exact hqfree pd (List.mem_cons_of_mem _ hpd)
          · rw [hnsq_def] at hpd
            rcases List.mem_map.mp hpd with ⟨q, hq, hpd⟩
            rw [← hpd]
            exact (hns_mem q hq).1
      -- The measure shrinks enough for the remaining fuel.
      have hmeasure : (rest ++ nsq).length +
          5 * ((freeSquares walls width height \
            (visited ∪ ns.toFinset)).card) ≤ fuel := by
        have hsd : freeSquares walls width height \ (visited ∪ ns.toFinset) =
            (freeSquares walls width height \ visited) \ ns.toFinset := by
          ext x
          simp only [Finset.mem_sdiff, Finset.mem_union]
          tauto
        have hcard_le : ns.toFinset.card ≤
            (freeSquares walls width height \ visited).card :=
          Finset.card_le_card hnsF_sub
        have hcard_sdiff : ((freeSquares walls width height \ visited) \
            ns.toFinset).card =
            (freeSquares walls width height \ visited).card -
              ns.toFinset.card :=
          Finset.card_sdiff hnsF_sub
        rw [hsd, hcard_sdiff, List.length_append, hnsq_def,
          List.length_map]
        rw [List.length_cons] at hfuel
        omega
      exact ih _ _ _ hinv' hmeasure

/-- The per-goal BFS table satisfies the final guarantees and starts with the
goal itself at distance zero. -/
theorem bfsGoal_spec {walls : Finset Pos} {width height : ℕ} {g : Pos}
    (hg : g ∈ freeSquares walls width height) :
    BfsFinal walls width height (bfsGoal walls width height g) ∧
      ∃ t, bfsGoal walls width height g = (g, 0) :: t := by
  constructor
  · apply bfsGoalAux_spec
    · constructor
      · simp
      · simp
      · simp
      · intro x hx y hy
        simp only [List.map_cons, List.map_nil, List.mem_singleton] at hx hy
        omega
      · intro pd hpd
        cases hpd
      · intro pd hpd
        rcases List.mem_singleton.mp hpd with rfl
        exact hg
    · have hfree_card : (freeSquares walls width height).card ≤
          width * height := by
        calc (freeSquares walls width height).card
            ≤ (gridSquares width height).card :=
              Finset.card_le_card (Finset.filter_subset _ _)
          _ ≤ ((Finset.range width) ×ˢ (Finset.range height)).card :=
              Finset.card_image_le
          _ = width * height := by
              rw [Finset.card_product, Finset.card_range, Finset.card_range]
      have hsd : (freeSquares walls width height \ {g}).card ≤
          width * height := le_trans
        (Finset.card_le_card (Finset.sdiff_subset)) hfree_card
      rw [bfsFuel]
      simp only [List.length_singleton]
      have h5 : 5 * ((freeSquares walls width height \ {g}).card) ≤
          5 * (width * height) := Nat.mul_le_mul_left 5 hsd
      rw [Nat.mul_assoc]
      omega
  · rw [bfsGoal, bfsFuel]
    simp only [bfsGoalAux]
    obtain ⟨t, ht⟩ := bfsGoalAux_prefix walls width height _ _ _ _
    exact ⟨t, by rw [ht]; simp⟩

/-- Entries of the combined distance table come exactly from the per-goal
BFS runs, tagged with the goal's index in the goal enumeration. -/
theorem mem_precompute {walls goals : Finset Pos} {width height : ℕ}
    {e : (Pos × ℕ) × ℕ} :
    e ∈ precompute_goal_distances walls goals width height ↔
      ∃ (j : ℕ) (gj : Pos), (finsetToList goals)[j]? = some gj ∧
        ∃ pd ∈ bfsGoal walls width height gj, e = ((pd.1, j), pd.2) := by
  rw [precompute_goal_distances, List.mem_flatMap]
  constructor
  · rintro ⟨gi, hgi, he⟩
    rcases List.mem_map.mp he with ⟨pd, hpd, hpde⟩
    exact ⟨gi.1, gi.2, List.mk_mem_enum_iff_getElem?.mp hgi, pd, hpd,
      hpde.symm⟩
  · rintro ⟨j, gj, hj, pd, hpd, he⟩
    exact ⟨(j, gj), List.mk_mem_enum_iff_getElem?.mpr hj,
      List.mem_map.mpr ⟨pd, hpd, he.symm⟩⟩

/-- In an association list with distinct keys, values are determined by their
key. -/
theorem assoc_value_unique {α β : Type} [DecidableEq α] {l : List (α × β)}
    (h : (l.map Prod.fst).Nodup) {k : α} {x y : β}
    (hx : (k, x) ∈ l) (hy : (k, y) ∈ l) : x = y := by
  have h1 := find?_of_key_nodup h hx
  have h2 := find?_of_key_nodup h hy
  rw [h1] at h2
  injection h2 with h2
  exact congrArg Prod.snd h2

/-- Forward reading of a table hit: it comes from the corresponding goal's
BFS run. -/
theorem tableFind_some_elim {walls goals : Finset Pos} {width height : ℕ}
    {b : Pos} {j v : ℕ}
    (hfind : tableFind (precompute_goal_distances walls goals width height)
      (b, j) = some v) :
    ∃ gj, (finsetToList goals)[j]? = some gj ∧
      (b, v) ∈ bfsGoal walls width height gj := by
  rw [tableFind] at hfind
  rcases Option.map_eq_some'.mp hfind with ⟨e, hfe, hev⟩
  have hmem := List.mem_of_find?_eq_some hfe
  have hkey : e.1 = (b, j) := by
    have := List.find?_some hfe
    simpa using this
  rcases mem_precompute.mp hmem with ⟨j', gj, hj', pd, hpd, he⟩
  subst he
  obtain ⟨h1, h2⟩ := Prod.mk.injEq .. ▸ hkey
  subst h2
  refine ⟨gj, hj', ?_⟩
  have hpdv : pd = (b, v) := Prod.ext h1 hev
  exact hpdv ▸ hpd

/-- Backward registration: any entry of the `j`-th goal's BFS run is found in
the combined table under key `(position, j)` (this needs the per-goal key
uniqueness, hence free goals). -/
theorem tableFind_some_intro {walls goals : Finset Pos} {width height : ℕ}
    {b gj : Pos} {j v : ℕ}
    (hg : ∀ g ∈ goals, g ∈ freeSquares walls width height)
    (hj : (finsetToList goals)[j]? = some gj)
    (hmem : (b, v) ∈ bfsGoal walls width height gj) :
    tableFind (precompute_goal_distances walls goals width height) (b, j) =
      some v := by
  have hin : ((b, j), v) ∈ precompute_goal_distances walls goals width height :=
    mem_precompute.mpr ⟨j, gj, hj, (b, v), hmem, rfl⟩
  have hsome : (List.find? (fun e => decide (e.1 = (b, j)))
      (precompute_goal_distances walls goals width height)).isSome := by
    rw [List.find?_isSome]
    exact ⟨_, hin, by simp⟩
  obtain ⟨e, he⟩ := Option.isSome_iff_exists.mp hsome
  have hkey : e.1 = (b, j) := by
    have := List.find?_some he
    simpa using this
  have hemem := List.mem_of_find?_eq_some he
  rcases mem_precompute.mp hemem with ⟨j', gj', hj', pd, hpd, hee⟩
  subst hee
  obtain ⟨h1, h2⟩ := Prod.mk.injEq .. ▸ hkey
  subst h2
  rw [hj'] at hj
  injection hj with hj
  subst hj
  have hgjfree : gj' ∈ freeSquares walls width height := by
    refine hg gj' (mem_finsetToList.mp ?_)
    exact List.getElem?_mem hj'
  have hnodup := (bfsGoal_spec hgjfree).1.1
  have hv : pd.2 = v := by
    refine assoc_value_unique hnodup ?_ hmem
    have : pd = (b, pd.2) := Prod.ext h1 rfl
    exact this ▸ hpd
  rw [tableFind, he]
  simp [h1, hv]

/-- The running minimum of `distance_heuristic`'s inner loop never exceeds
its starting accumulator. -/
theorem foldl_min_le_init (gd : List ((Pos × ℕ) × ℕ)) (b : Pos) :
    ∀ (l : List ℕ) (m : ℕ∞),
      l.foldl (fun m i =>
        match tableFind gd (b, i) with
        | some d => min m (d : ℕ∞)
        | none => m) m ≤ m := by
  intro l
  induction l with
  | nil => intro m; simp
  | cons i t ih =>
    intro m
    rw [List.foldl_cons]
    cases h : tableFind gd (b, i) with
    | none =>
      simp only [h]
      exact ih m
    | some d =>
      simp only [h]
      exact le_trans (ih (min m (d : ℕ∞))) (min_le_left _ _)

/-- The running minimum is bounded by any table entry it scans. -/
theorem foldl_min_le_found (gd : List ((Pos × ℕ) × ℕ)) (b : Pos) :
    ∀ (l : List ℕ) (m : ℕ∞) (i : ℕ) (v : ℕ), i ∈ l →
      tableFind gd (b, i) = some v →
      l.foldl (fun m i =>
        match tableFind gd (b, i) with
        | some d => min m (d : ℕ∞)
        | none => m) m ≤ (v : ℕ∞) := by
  intro l
  induction l with
  | nil => intro m i v hi; cases hi
  | cons j t ih =>
    intro m i v hi hf
    rw [List.foldl_cons]
    rcases List.mem_cons.mp hi with hi | hi
    · subst hi
      rw [hf]
      exact le_trans (foldl_min_le_init gd b t _) (min_le_right _ _)
    · cases h : tableFind gd (b, j) with
      | none => simp only [h]; exact ih _ i v hi hf
      | some d => simp only [h]; exact ih _ i v hi hf

/-- `min_box_dist` is bounded by any goal-index entry of the table. -/
theorem min_box_dist_le {gd : List ((Pos × ℕ) × ℕ)} {n : ℕ} {b : Pos}
    {i v : ℕ} (hi : i < n) (hf : tableFind gd (b, i) = some v) :
    min_box_dist gd n b ≤ (v : ℕ∞) := by
  rw [min_box_dist]
  exact foldl_min_le_found gd b _ _ i v (List.mem_range.mpr hi) hf

/-- Pointwise comparison of two running minima: if every table hit for `q`
is matched by a hit for `b` at most one larger, the final minimum for `b`
is at most one more than for `q`. -/
theorem foldl_min_pointwise (gd : List ((Pos × ℕ) × ℕ)) (b q : Pos) :
    ∀ (l : List ℕ),
      (∀ i ∈ l, ∀ v : ℕ, tableFind gd (q, i) = some v →
        ∃ w ≤ v + 1, tableFind gd (b, i) = some w) →
      ∀ (m1 m2 : ℕ∞), m1 ≤ m2 + 1 →
      l.foldl (fun m i =>
        match tableFind gd (b, i) with
        | some d => min m (d : ℕ∞)
        | none => m) m1 ≤
      l.foldl (fun m i =>
        match tableFind gd (q, i) with
        | some d => min m (d : ℕ∞)
        | none => m) m2 + 1 := by
  intro l
  induction l with
  | nil =>
    intro _ m1 m2 hm
    simpa using hm
  | cons i t ih =>
    intro hyp m1 m2 hm
    rw [List.foldl_cons, List.foldl_cons]
    have hyp' : ∀ i ∈ t, ∀ v : ℕ, tableFind gd (q, i) = some v →
        ∃ w ≤ v + 1, tableFind gd (b, i) = some w :=
      fun i hi => hyp i (List.mem_cons_of_mem _ hi)
    cases hq : tableFind gd (q, i) with
    | some v =>
      obtain ⟨w, hwle, hbw⟩ := hyp i (List.mem_cons_self _ _) v hq
      rw [hbw]
      refine ih hyp' _ _ ?_
      have hcast : (w : ℕ∞) ≤ (v : ℕ∞) + 1 := by
        exact_mod_cast hwle
      calc min m1 (w : ℕ∞) ≤ min (m2 + 1) ((v : ℕ∞) + 1) :=
            min_le_min hm hcast
        _ = min m2 (v : ℕ∞) + 1 := min_add_add_right m2 _ 1
    | none =>
      cases hb : tableFind gd (b, i) with
      | none => exact ih hyp' _ _ hm
      | some w =>
        refine ih hyp' _ _ ?_
        exact le_trans (min_le_left _ _) hm

/-- Lifted to `min_box_dist`. -/
theorem min_box_dist_pointwise {gd : List ((Pos × ℕ) × ℕ)} {n : ℕ}
    {b q : Pos}
    (hyp : ∀ i < n, ∀ v : ℕ, tableFind gd (q, i) = some v →
      ∃ w ≤ v + 1, tableFind gd (b, i) = some w) :
    min_box_dist gd n b ≤ min_box_dist gd n q + 1 := by
  rw [min_box_dist, min_box_dist]
  refine foldl_min_pointwise gd b q _ ?_ ⊤ ⊤ le_top
  intro i hi
  exact hyp i (List.mem_range.mp hi)

/-- When the boxes sit exactly on the goals, the distance heuristic
vanishes: every goal finds itself in its own BFS table at distance zero. -/
theorem distance_heuristic_goal {walls goals : Finset Pos} {width height : ℕ}
    (hg : ∀ g ∈ goals, g ∈ freeSquares walls width height) :
    distance_heuristic goals goals
      (precompute_goal_distances walls goals width height) = 0 := by
  rw [distance_heuristic]
  apply Finset.sum_eq_zero
  intro g hgmem
  have hmem : g ∈ finsetToList goals := mem_finsetToList.mpr hgmem
  obtain ⟨j, hget⟩ := List.mem_iff_getElem?.mp hmem
  have hj : j < goals.card := by
    have := (List.getElem?_eq_some.mp hget).1
    rwa [finsetToList_length] at this
  obtain ⟨-, t, hts⟩ := bfsGoal_spec (hg g hgmem)
  have hhead : (g, 0) ∈ bfsGoal walls width height g := by
    rw [hts]
    exact List.mem_cons_self _ _
  have hfind := tableFind_some_intro hg hget hhead
  have hle := min_box_dist_le hj hfind
  simpa using hle

/-- One push can lower the heuristic by at most one: moving a box from `b`
to the adjacent free square `pt` changes each goal distance by at most
one. -/
theorem distance_heuristic_push {walls goals : Finset Pos} {width height : ℕ}
    (hg : ∀ g ∈ goals, g ∈ freeSquares walls width height)
    {boxes : Finset Pos} {b pt : Pos}
    (hb : b ∈ boxes) (hbfree : b ∈ freeSquares walls width height)
    (hnbr : b ∈ goalNbrs pt) (hpt_notin : pt ∉ boxes) :
    distance_heuristic boxes goals
      (precompute_goal_distances walls goals width height) ≤
    distance_heuristic (insert pt (boxes.erase b)) goals
      (precompute_goal_distances walls goals width height) + 1 := by
  set gd := precompute_goal_distances walls goals width height with hgd
  have hkey : min_box_dist gd goals.card b ≤
      min_box_dist gd goals.card pt + 1 := by
    refine min_box_dist_pointwise ?_
    intro i hi v hfind
    rcases tableFind_some_elim hfind with ⟨gj, hgj, hptv⟩
    have hgjmem : gj ∈ goals := mem_finsetToList.mp (List.getElem?_mem hgj)
    obtain ⟨⟨hnodup, hclosed⟩, -⟩ := bfsGoal_spec (hg gj hgjmem)
    obtain ⟨w, hwle, hbw⟩ := hclosed (pt, v) hptv b hnbr hbfree
    exact ⟨w, hwle, tableFind_some_intro hg hgj hbw⟩
  have hpt_not_erase : pt ∉ boxes.erase b :=
    fun hx => hpt_notin (Finset.mem_of_mem_erase hx)
  rw [distance_heuristic, distance_heuristic,
    Finset.sum_insert hpt_not_erase,
    ← Finset.add_sum_erase boxes _ hb]
  calc min_box_dist gd goals.card b +
        ∑ x ∈ boxes.erase b, min_box_dist gd goals.card x
      ≤ (min_box_dist gd goals.card pt + 1) +
        ∑ x ∈ boxes.erase b, min_box_dist gd goals.card x :=
        add_le_add_right hkey _
    _ = (min_box_dist gd goals.card pt +
        ∑ x ∈ boxes.erase b, min_box_dist gd goals.card x) + 1 := by ring

/-- Admissibility core: if a state can be pushed to the goal configuration
in `n` pushes, its distance heuristic is at most `n`. -/
theorem distance_heuristic_admissible_aux {ps : PuzzleStatic} {s t : State}
    {n : ℕ}
    (hg : ∀ g ∈ ps.goals, g ∈ freeSquares ps.walls ps.width ps.height)
    (hsteps : Steps ps s n t) (hgoal : t.boxes = ps.goals) :
    (∀ x ∈ s.boxes, x ∈ freeSquares ps.walls ps.width ps.height) →
    distance_heuristic s.boxes ps.goals
      (precompute_goal_distances ps.walls ps.goals ps.width ps.height) ≤
      (n : ℕ∞) := by
  induction hsteps with
  | refl s =>
    intro _
    rw [hgoal, distance_heuristic_goal hg]
    simp
  | head hstep hrest ih =>
    rename_i s1 u1 t1 n1
    intro hfree
    rcases stepTo_elim hstep with ⟨b, δ, d, hdir, hb, hleg, hu⟩
    have hpt_free : (b.1 + δ.1, b.2 + δ.2) ∈
        freeSquares ps.walls ps.width ps.height := by
      refine mem_freeSquares.mpr ⟨⟨hleg.2.2.1, hleg.2.2.2.1,
        hleg.2.2.2.2.1, hleg.2.2.2.2.2⟩, ?_⟩
      exact fun hw => hleg.2.1 (Finset.mem_union_left _ hw)
    have hpt_notin : (b.1 + δ.1, b.2 + δ.2) ∉ s1.boxes :=
      fun hx => hleg.2.1 (Finset.mem_union_right _ hx)
    have hnbr : b ∈ goalNbrs (b.1 + δ.1, b.2 + δ.2) := by
      apply mem_goalNbrs_symm
      rw [mem_goalNbrs]
      rcases dir_delta_cases hdir with h | h | h | h <;> subst h <;>
        simp [Prod.ext_iff] <;> omega
    have hfree' : ∀ x ∈ (pushResult s1 b δ).boxes,
        x ∈ freeSquares ps.walls ps.width ps.height := by
      intro x hx
      rcases Finset.mem_insert.mp hx with hx | hx
      · exact hx ▸ hpt_free
      · exact hfree x (Finset.mem_of_mem_erase hx)
    have hstep_le := distance_heuristic_push hg hb (hfree b hb) hnbr
      hpt_notin
    have hih := ih hgoal (hu ▸ hfree')
    push_cast
    calc distance_heuristic s1.boxes ps.goals
          (precompute_goal_distances ps.walls ps.goals ps.width ps.height)
        ≤ distance_heuristic (pushResult s1 b δ).boxes ps.goals
          (precompute_goal_distances ps.walls ps.goals ps.width ps.height) +
            1 := hstep_le
      _ ≤ (n1 : ℕ∞) + 1 := add_le_add_right (hu ▸ hih) 1

/-- A state whose only box sits in a corner has no legal pushes at all. -/
theorem generate_moves_corner_empty {ps : PuzzleStatic} {s : State} {b0 : Pos}
    (hboxes : s.boxes = {b0}) (hplayer : s.player_pos ∉ ps.walls)
    (hcorner : is_corner_deadlock b0 ps.walls ps.goals = true) :
    generate_moves s ps = [] := by
  rw [List.eq_nil_iff_forall_not_mem]
  intro m hm
  obtain ⟨d, t, b⟩ := m
  rcases mem_generate_moves.mp hm with ⟨δ, hdir, hb, hleg, -⟩
  rw [hboxes, Finset.mem_singleton] at hb
  subst hb
  exact corner_box_not_pushable hdir hplayer hcorner hleg

/-- Running `solve` on a single-box puzzle whose box starts in a non-goal
corner: the result is `unsolvable`, reached either through the
infinite-heuristic pre-check (`states_explored = 0`) or by expanding the
initial state, finding no successors, and draining the frontier
(`states_explored = 1`). -/
theorem solve_corner {ps : PuzzleStatic} {initial : State} {b0 : Pos}
    {ms : ℕ} (hms : 1 ≤ ms) (hboxes : initial.boxes = {b0})
    (hplayer : initial.player_pos ∉ ps.walls)
    (hcorner : is_corner_deadlock b0 ps.walls ps.goals = true) :
    ∃ r, solve initial ps ms = .ok r ∧ r.success = false ∧
      r.reason = some .unsolvable ∧ ∃ se ≤ 1, r.states_explored = some se := by
  have hb0goal : b0 ∉ ps.goals := (is_corner_deadlock_iff.mp hcorner).1
  have hnotgoal : is_goal_state initial ps = false := by
    rw [is_goal_state, decide_eq_false_iff_not]
    intro hgl
    exact hb0goal (hgl ▸ (hboxes ▸ Finset.mem_singleton_self b0))
  rw [solve, hnotgoal]
  simp only [Bool.false_eq_true, if_false]
  by_cases hinf : distance_heuristic initial.boxes ps.goals
      (precompute_goal_distances ps.walls ps.goals ps.width ps.height) = ⊤
  · rw [if_pos hinf]
    exact ⟨_, rfl, rfl, rfl, 0, Nat.zero_le 1, rfl⟩
  · rw [if_neg hinf]
    have hms2 : ms + 2 = (ms + 1) + 1 := rfl
    rw [hms2, solveLoop]
    have hpop : popMin [⟨distance_heuristic initial.boxes ps.goals
        (precompute_goal_distances ps.walls ps.goals ps.width ps.height),
        0, 0, initial, []⟩] =
        some (⟨distance_heuristic initial.boxes ps.goals
          (precompute_goal_distances ps.walls ps.goals ps.width ps.height),
          0, 0, initial, []⟩, []) := rfl
    rw [hpop]
    simp only []
    have hnot_budget : ¬ (0 ≥ ms) := by omega
    rw [if_neg hnot_budget]
    rw [if_neg (by exact Finset.not_mem_empty initial)]
    rw [generate_moves_corner_empty hboxes hplayer hcorner]
    rw [solveLoop]
    exact ⟨_, rfl, rfl, rfl, 1, le_refl 1, rfl⟩

/-- Zipping a list with its image pairs each element with its image. -/
theorem zip_self_map {α β : Type} (l : List α) (f : α → β) :
    l.zip (l.map f) = l.map fun a => (a, f a) := by
  induction l with
  | nil => rfl
  | cons a t ih => simp [ih]

/-!
Claim theorems.
-/

/-- C1: the spec requires `solve_puzzle` on the one-push example grid to
return success with solution `"U"`.  The code instead raises
`ValueError: too many values to unpack (expected 2)` in the expansion loop
(`generate_moves` yields 3-tuples, `solve` destructures 2-tuples), which the
outer `try/except` converts into an `invalid_puzzle` failure; this theorem
evaluates the embedded `solve_puzzle` at that grid. -/
theorem claim1_one_push_returns_invalid :
    solve_puzzle onePushGrid 10000000 =
      invalidResult "too many values to unpack (expected 2)" := by
  decide

/-- C2 counterexample: `is_deadlocked` reports this state as deadlocked (its
middle box is flagged by the freeze check), the state satisfies all the model
invariants of the claim, and yet three legal pushes reach the goal
configuration — so the claimed soundness of `is_deadlocked` fails. -/
theorem claim2_counterexample :
    is_deadlocked exState0 exStatic = true ∧
    exState0.boxes ∩ exStatic.walls = ∅ ∧
    exStatic.walls ∩ exStatic.goals = ∅ ∧
    exStatic.deadlock_squares ⊆
      gridSquares 7 7 \ (exStatic.walls ∪ exStatic.goals) ∧
    Steps exStatic exState0 3 exSt3 ∧ exSt3.boxes = exStatic.goals := by
  refine ⟨by decide, by decide, by decide, by decide, ?_, by decide⟩
  refine @Steps.head exStatic exState0 exSt1 exSt3 2
    ⟨('R', exSt1, ((2 : ℤ), (2 : ℤ))), by decide, rfl⟩ ?_
  refine @Steps.head exStatic exSt1 exSt2 exSt3 1
    ⟨('R', exSt2, ((2 : ℤ), (4 : ℤ))), by decide, rfl⟩ ?_
  exact @Steps.head exStatic exSt2 exSt3 exSt3 0
    ⟨('U', exSt3, ((2 : ℤ), (3 : ℤ))), by decide, rfl⟩ (Steps.refl exSt3)

/-- C2 amended: the deadlock detection is sound for both of its non-freeze
components — if a box of a state sits on a square of
`compute_static_deadlocks` (the squares `is_deadlocked` checks first), or
`is_2x2_deadlock` fires on the state, then no sequence of legal pushes
reaches the goal configuration.  The per-state freeze check is the only
unsound component: it can flag solvable states (see the counterexample).
The hypotheses are the model invariants every parsed state satisfies:
player and boxes off the walls and the player not on a box. -/
theorem claim2_nonfreeze_deadlock_sound {ps : PuzzleStatic} {s t : State}
    {n : ℕ} (hpw : s.player_pos ∉ ps.walls)
    (hpb : s.player_pos ∉ s.boxes)
    (hw : ∀ x ∈ s.boxes, x ∉ ps.walls)
    (htrig : (∃ b0 ∈ s.boxes, b0 ∈ compute_static_deadlocks ps.walls
        ps.goals ps.width ps.height) ∨
      is_2x2_deadlock s.boxes ps.walls ps.goals = true)
    (hsteps : Steps ps s n t) : t.boxes ≠ ps.goals := by
  rcases htrig with ⟨b0, hb0, hdead⟩ | h2
  · exact compute_static_deadlocks_sound hpw hw hb0 hdead hsteps
  · exact is_2x2_deadlock_sound hpb h2 hsteps

/-- Witness for the amended C2 theorem at the wall-free 2x2-block puzzle,
exercising the 2x2 disjunct. -/
theorem claim2_nonfreeze_deadlock_sound_witness :
    sq2State.player_pos ∉ sq2Static.walls ∧
    sq2State.player_pos ∉ sq2State.boxes ∧
    (∀ x ∈ sq2State.boxes, x ∉ sq2Static.walls) ∧
    is_2x2_deadlock sq2State.boxes sq2Static.walls sq2Static.goals = true ∧
    sq2State.boxes ≠ sq2Static.goals :=
  ⟨by decide, by decide, by decide, by decide,
    @claim2_nonfreeze_deadlock_sound sq2Static sq2State sq2State 0
      (by decide) (by decide) (by decide) (Or.inr (by decide))
      (Steps.refl sq2State)⟩

/-- C3: `generate_moves` emits a move pushing box `b` in direction `d` if
and only if the push-from square `b - d` is in the reachable set computed
with boxes as obstacles and the destination `b + d` is in bounds, not a
wall, and not a box; the successor state puts the player on `b` and replaces
`b` by the destination in the box set. -/
theorem claim3_generate_moves_iff (s : State) (ps : PuzzleStatic) (d : Char)
    (t : State) (b : Pos) :
    (d, t, b) ∈ generate_moves s ps ↔
      ∃ δ : Pos, (d, δ) ∈ DIRECTIONS ∧ b ∈ s.boxes ∧
        (b.1 - δ.1, b.2 - δ.2) ∈
          get_reachable_positions s.player_pos s.boxes ps.walls
            ps.width ps.height ∧
        (b.1 + δ.1, b.2 + δ.2) ∉ ps.walls ∧
        (b.1 + δ.1, b.2 + δ.2) ∉ s.boxes ∧
        0 ≤ b.1 + δ.1 ∧ b.1 + δ.1 < (ps.width : ℤ) ∧
        0 ≤ b.2 + δ.2 ∧ b.2 + δ.2 < (ps.height : ℤ) ∧
        t = ⟨b, insert (b.1 + δ.1, b.2 + δ.2) (s.boxes.erase b)⟩ := by
  rw [mem_generate_moves]
  constructor
  · rintro ⟨δ, hdir, hb, hleg, ht⟩
    obtain ⟨h1, h2, h3⟩ := hleg
    exact ⟨δ, hdir, hb, h1,
      fun hw => h2 (Finset.mem_union_left _ hw),
      fun hx => h2 (Finset.mem_union_right _ hx),
      h3.1, h3.2.1, h3.2.2.1, h3.2.2.2, ht⟩
  · rintro ⟨δ, hdir, hb, h1, h2, h3, h4, h5, h6, h7, ht⟩
    refine ⟨δ, hdir, hb, ⟨h1, ?_, h4, h5, h6, h7⟩, ht⟩
    intro hu
    rcases Finset.mem_union.mp hu with hu | hu
    · exact h2 hu
    · exact h3 hu

/-- C4 counterexample: on this single-box non-goal-corner puzzle the goal is
connected to the corner square in the walls-only graph, so the heuristic is
finite and the pre-check does not fire; `solve_puzzle` reports `unsolvable`
only after expanding the initial state, with `states_explored = 1`, not `0`
as claimed. -/
theorem claim4_counterexample :
    (solve_puzzle cornerGrid 10000000).success = false ∧
    (solve_puzzle cornerGrid 10000000).reason = some .unsolvable ∧
    (solve_puzzle cornerGrid 10000000).states_explored = some 1 := by
  refine ⟨?_, ?_, ?_⟩ <;> decide

/-- C4 amended: for every single-box puzzle whose box starts on a non-goal
corner square (player not on a wall, at least one state allowed by the
budget), `solve` returns failure with reason `unsolvable`; `states_explored`
is `0` when the infinite-heuristic pre-check fires and `1` otherwise (the
initial state is expanded, produces no pushes, and the frontier empties). -/
theorem claim4_corner_unsolvable {ps : PuzzleStatic} {initial : State}
    {b0 : Pos} {ms : ℕ} (hms : 1 ≤ ms) (hboxes : initial.boxes = {b0})
    (hplayer : initial.player_pos ∉ ps.walls)
    (hcorner : is_corner_deadlock b0 ps.walls ps.goals = true) :
    ∃ r, solve initial ps ms = .ok r ∧ r.success = false ∧
      r.reason = some .unsolvable ∧ ∃ se ≤ 1, r.states_explored = some se :=
  solve_corner hms hboxes hplayer hcorner

/-- Witness for the amended C4 theorem at the corner puzzle. -/
theorem claim4_corner_unsolvable_witness :
    1 ≤ 10000000 ∧ cornInitial.boxes = {((1 : ℤ), (1 : ℤ))} ∧
    cornInitial.player_pos ∉ cornStatic.walls ∧
    is_corner_deadlock (1, 1) cornStatic.walls cornStatic.goals = true ∧
    ∃ r, solve cornInitial cornStatic 10000000 = .ok r ∧
      r.success = false ∧ r.reason = some .unsolvable ∧
      ∃ se ≤ 1, r.states_explored = some se :=
  ⟨by decide, by decide, by decide, by decide,
    @claim4_corner_unsolvable cornStatic cornInitial ((1 : ℤ), (1 : ℤ))
      10000000 (by decide) (by decide) (by decide) (by decide)⟩

/-- C5: the distance heuristic computed from `precompute_goal_distances` on
the puzzle's walls and goals is admissible — whenever some sequence of `n`
legal pushes takes state `s` to the goal configuration, the heuristic of
`s`'s boxes is at most `n`, so it never exceeds the minimum number of
remaining pushes.  The hypotheses are the puzzle-model invariants: goals and
boxes lie on in-bounds non-wall squares. -/
theorem claim5_heuristic_admissible (ps : PuzzleStatic) (s t : State) (n : ℕ)
    (hg : ∀ g ∈ ps.goals, g ∈ freeSquares ps.walls ps.width ps.height)
    (hboxes : ∀ x ∈ s.boxes, x ∈ freeSquares ps.walls ps.width ps.height)
    (hsteps : Steps ps s n t) (hgoal : t.boxes = ps.goals) :
    distance_heuristic s.boxes ps.goals
      (precompute_goal_distances ps.walls ps.goals ps.width ps.height) ≤
      (n : ℕ∞) :=
  distance_heuristic_admissible_aux hg hsteps hgoal hboxes

/-- Witness for C5 at the one-push puzzle: one push solves it and the
heuristic of the initial state is at most `1`. -/
theorem claim5_heuristic_admissible_witness :
    (∀ g ∈ opStatic.goals,
      g ∈ freeSquares opStatic.walls opStatic.width opStatic.height) ∧
    (∀ x ∈ opInitial.boxes,
      x ∈ freeSquares opStatic.walls opStatic.width opStatic.height) ∧
    opUp.boxes = opStatic.goals ∧
    distance_heuristic opInitial.boxes opStatic.goals
      (precompute_goal_distances opStatic.walls opStatic.goals
        opStatic.width opStatic.height) ≤ ((1 : ℕ) : ℕ∞) :=
  ⟨by decide, by decide, by decide,
    claim5_heuristic_admissible opStatic opInitial opUp 1 (by decide)
      (by decide)
      (Steps.head ⟨('U', opUp, ((1 : ℤ), (2 : ℤ))), by decide, rfl⟩
        (Steps.refl opUp)) (by decide)⟩

/-- C6: whenever the trimmed grid is empty, or no player, boxes or goals are
found, or the box and goal counts differ, `solve_puzzle` fails with reason
`invalid_puzzle` and a message, and carries no `states_explored` stats —
the search is never entered (all search results carry stats). -/
theorem claim6_invalid_rejected (txt : List Char) (ms : ℕ)
    (h : parse_puzzle_string txt = [] ∨
      (extract_elements (parse_puzzle_string txt)).player = none ∨
      (extract_elements (parse_puzzle_string txt)).boxes = ∅ ∨
      (extract_elements (parse_puzzle_string txt)).goals = ∅ ∨
      (extract_elements (parse_puzzle_string txt)).boxes.card ≠
        (extract_elements (parse_puzzle_string txt)).goals.card) :
    (solve_puzzle txt ms).success = false ∧
    (solve_puzzle txt ms).reason = some .invalid_puzzle ∧
    (solve_puzzle txt ms).error ≠ none ∧
    (solve_puzzle txt ms).states_explored = none := by
  by_cases h1 : parse_puzzle_string txt = []
  · simp [solve_puzzle, h1, invalidResult]
  cases h2 : (extract_elements (parse_puzzle_string txt)).player with
  | none => simp [solve_puzzle, h1, h2, invalidResult]
  | some p =>
    by_cases h3 : (extract_elements (parse_puzzle_string txt)).boxes = ∅
    · simp [solve_puzzle, h1, h2, h3, invalidResult]
    by_cases h4 : (extract_elements (parse_puzzle_string txt)).goals = ∅
    · simp [solve_puzzle, h1, h2, h3, h4, invalidResult]
    by_cases h5 : (extract_elements (parse_puzzle_string txt)).boxes.card ≠
        (extract_elements (parse_puzzle_string txt)).goals.card
    · simp [solve_puzzle, h1, h2, h3, h4, h5, invalidResult]
    · exfalso
      rcases h with h | h | h | h | h
      · exact h1 h
      · rw [h2] at h
        cases h
      · exact h3 h
      · exact h4 h
      · exact h5 h

/-- Witness for C6 at a grid with no player. -/
theorem claim6_invalid_rejected_witness :
    ((extract_elements (parse_puzzle_string noPlayerGrid)).player = none) ∧
    (solve_puzzle noPlayerGrid 100).success = false ∧
    (solve_puzzle noPlayerGrid 100).reason = some .invalid_puzzle ∧
    (solve_puzzle noPlayerGrid 100).error ≠ none ∧
    (solve_puzzle noPlayerGrid 100).states_explored = none :=
  ⟨by decide, claim6_invalid_rejected noPlayerGrid 100
    (Or.inr (Or.inl (by decide)))⟩

/-- C7: `parse_puzzle_string` discards leading and trailing blank lines,
then pads every remaining row with spaces on the right to the maximum row
length — the resulting grid has one row per trimmed line, every row has the
maximum length, the original characters are the prefix of each row, and the
rest of each row is space padding. -/
theorem claim7_parse_rectangular (s : List Char) :
    (parse_puzzle_string s).length =
      (dropLeadingBlanks (dropTrailingBlanks (splitLines s))).length ∧
    (∀ r ∈ parse_puzzle_string s, r.length =
      maxLineLength (dropLeadingBlanks (dropTrailingBlanks (splitLines s)))) ∧
    ∀ pr ∈ (dropLeadingBlanks (dropTrailingBlanks (splitLines s))).zip
        (parse_puzzle_string s),
      pr.2.take pr.1.length = pr.1 ∧
      pr.2.drop pr.1.length = List.replicate (pr.2.length - pr.1.length) ' ' := by
  rw [parse_puzzle_string]
  split
  · rename_i hnil
    rw [hnil]
    refine ⟨rfl, ?_, ?_⟩
    · intro r hr
      cases hr
    · intro pr hpr
      rw [List.zip_nil_right] at hpr
      cases hpr
  · rename_i hnil
    set lines := dropLeadingBlanks (dropTrailingBlanks (splitLines s))
      with hlines
    have hzip : lines.zip (lines.map fun l =>
        ljust l (maxLineLength lines)) =
        lines.map fun l => (l, ljust l (maxLineLength lines)) :=
      zip_self_map lines _
    refine ⟨List.length_map _ _, ?_, ?_⟩
    · intro r hr
      rcases List.mem_map.mp hr with ⟨l, hl, hlr⟩
      rw [← hlr]
      exact ljust_length (le_maxLineLength lines l hl)
    · intro pr hpr
      rw [hzip] at hpr
      rcases List.mem_map.mp hpr with ⟨l, hl, hlp⟩
      subst hlp
      refine ⟨ljust_take l _, ?_⟩
      rw [ljust_drop, ljust_length (le_maxLineLength lines l hl)]

/-- Witness for C7 at the one-push grid. -/
theorem claim7_parse_rectangular_witness :
    (parse_puzzle_string onePushGrid).length =
      (dropLeadingBlanks (dropTrailingBlanks (splitLines onePushGrid))).length ∧
    (∀ r ∈ parse_puzzle_string onePushGrid, r.length =
      maxLineLength (dropLeadingBlanks (dropTrailingBlanks
        (splitLines onePushGrid)))) ∧
    ∀ pr ∈ (dropLeadingBlanks (dropTrailingBlanks
        (splitLines onePushGrid))).zip (parse_puzzle_string onePushGrid),
      pr.2.take pr.1.length = pr.1 ∧
      pr.2.drop pr.1.length = List.replicate (pr.2.length - pr.1.length) ' ' :=
  claim7_parse_rectangular onePushGrid

/-- C8: whenever `solve_puzzle` succeeds, replaying the returned solution
string with `apply_move` from the parsed initial state never fails and ends
with the boxes exactly on the goals.  (With the tuple-arity defect of C1,
the only successful results are already-solved puzzles with the empty
solution, for which the replay is trivially correct.) -/
theorem claim8_solution_replays (txt : List Char) (ms : ℕ) (r : SolveResult)
    (hr : solve_puzzle txt ms = r) (hs : r.success = true) :
    ∃ p, (extract_elements (parse_puzzle_string txt)).player = some p ∧
    ∃ sol, r.solution = some sol ∧
    ∃ fin, replay (static_of (extract_elements (parse_puzzle_string txt)))
        (initial_of (extract_elements (parse_puzzle_string txt)) p) sol =
          .ok fin ∧
      fin.boxes = (extract_elements (parse_puzzle_string txt)).goals := by
  rw [solve_puzzle] at hr
  split at hr
  · rw [← hr] at hs
    cases hs
  · rename_i hnil
    simp only [] at hr
    split at hr
    · rw [← hr] at hs
      cases hs
    · rename_i p hp
      split at hr
      · rw [← hr] at hs
        cases hs
      · split at hr
        · rw [← hr] at hs
          cases hs
        · split at hr
          · rw [← hr] at hs
            cases hs
          · split at hr
            · rename_i r' hsolve
              subst hr
              obtain ⟨hrec, hgoals⟩ := solve_ok_success hsolve hs
              refine ⟨p, hp, [], ?_, initial_of
                (extract_elements (parse_puzzle_string txt)) p, rfl, ?_⟩
              · rw [hrec]
              · exact hgoals
            · rw [← hr] at hs
              cases hs

/-- Witness for C8 at the already-solved puzzle. -/
theorem claim8_solution_replays_witness :
    (solve_puzzle solvedGrid 100).success = true ∧
    ∃ p, (extract_elements (parse_puzzle_string solvedGrid)).player =
      some p ∧
    ∃ sol, (solve_puzzle solvedGrid 100).solution = some sol ∧
    ∃ fin, replay (static_of (extract_elements
        (parse_puzzle_string solvedGrid)))
        (initial_of (extract_elements (parse_puzzle_string solvedGrid)) p)
          sol = .ok fin ∧
      fin.boxes = (extract_elements (parse_puzzle_string solvedGrid)).goals :=
  ⟨by decide, claim8_solution_replays solvedGrid 100 _ rfl (by decide)⟩

/-- C9: from a state whose boxes avoid the walls, every successor produced
by `generate_moves` again has its boxes disjoint from the walls and with the
same cardinality: a legal push relocates exactly one box. -/
theorem claim9_push_preserves (s : State) (ps : PuzzleStatic)
    (h : s.boxes ∩ ps.walls = ∅) :
    ∀ m ∈ generate_moves s ps,
      m.2.1.boxes ∩ ps.walls = ∅ ∧ m.2.1.boxes.card = s.boxes.card := by
  intro m hm
  have hw : ∀ x ∈ s.boxes, x ∉ ps.walls := by
    intro x hx hxx
    exact (Finset.eq_empty_iff_forall_not_mem.mp h x)
      (Finset.mem_inter.mpr ⟨hx, hxx⟩)
  obtain ⟨hcard, hw'⟩ := stepTo_card_and_walls hm hw
  refine ⟨?_, hcard⟩
  rw [Finset.eq_empty_iff_forall_not_mem]
  intro x hx
  rcases Finset.mem_inter.mp hx with ⟨h1, h2⟩
  exact hw' x h1 h2

/-- Witness for C9 at the one-push puzzle's only move. -/
theorem claim9_push_preserves_witness :
    opInitial.boxes ∩ opStatic.walls = ∅ ∧
    (('U', opUp, ((1 : ℤ), (2 : ℤ))) ∈ generate_moves opInitial opStatic) ∧
    opUp.boxes ∩ opStatic.walls = ∅ ∧
    opUp.boxes.card = opInitial.boxes.card :=
  ⟨by decide, by decide,
    (claim9_push_preserves opInitial opStatic (by decide)
      ('U', opUp, ((1 : ℤ), (2 : ℤ))) (by decide)).1,
    (claim9_push_preserves opInitial opStatic (by decide)
      ('U', opUp, ((1 : ℤ), (2 : ℤ))) (by decide)).2⟩

/-- C10: every element of the list returned by `generate_moves` is a
3-tuple `(direction, new_state, box)` (its Lean type is
`Char × State × Pos`) whose third component is the pushed box's original
position: it lies in the parent's box set, it is the successor's player
position, and the successor's boxes are the parent's with it replaced by
the push destination.  The expansion loop of `solve` destructures elements
as 2-tuples, which is exactly the C1 defect. -/
theorem claim10_move_triples (s : State) (ps : PuzzleStatic) :
    ∀ m ∈ generate_moves s ps,
      m.2.2 ∈ s.boxes ∧ m.2.1.player_pos = m.2.2 ∧
      ∃ δ : Pos, (m.1, δ) ∈ DIRECTIONS ∧
        m.2.1.boxes =
          insert (m.2.2.1 + δ.1, m.2.2.2 + δ.2) (s.boxes.erase m.2.2) := by
  intro m hm
  obtain ⟨d, t, b⟩ := m
  rcases mem_generate_moves.mp hm with ⟨δ, hdir, hb, hleg, ht⟩
  subst ht
  exact ⟨hb, rfl, δ, hdir, rfl⟩

/-- Witness for C10 at the one-push puzzle's only move. -/
theorem claim10_move_triples_witness :
    (('U', opUp, ((1 : ℤ), (2 : ℤ))) ∈ generate_moves opInitial opStatic) ∧
    ((1 : ℤ), (2 : ℤ)) ∈ opInitial.boxes ∧
    opUp.player_pos = ((1 : ℤ), (2 : ℤ)) ∧
    ∃ δ : Pos, ('U', δ) ∈ DIRECTIONS ∧
      opUp.boxes = insert ((1 : ℤ) + δ.1, (2 : ℤ) + δ.2)
        (opInitial.boxes.erase ((1 : ℤ), (2 : ℤ))) :=
  ⟨by decide,
    (claim10_move_triples opInitial opStatic
      ('U', opUp, ((1 : ℤ), (2 : ℤ))) (by decide)).1,
    (claim10_move_triples opInitial opStatic
      ('U', opUp, ((1 : ℤ), (2 : ℤ))) (by decide)).2.1,
    (claim10_move_triples opInitial opStatic
      ('U', opUp, ((1 : ℤ), (2 : ℤ))) (by decide)).2.2⟩

end Sokoban
